import Mathlib

/-!
# Verification of the bokio-vab reconciliation-and-validation core

This development gives a shallow embedding of the repository's core:

* a model of the JavaScript values the code manipulates (`JsVal`), mirroring
  the "compact" tree representation produced by the `xml-js` library
  (element = object with optional `_attributes`, optional `_text`, and one
  field per child tag whose value is a single node or an array of nodes);
* the XML codec (`parseXML` / `generateXML`).  The real code delegates to
  the third-party `xml-js` library whose source is not part of the
  repository, so the codec is modelled from the spec (see the doc comments
  of `parseXML` and `generateXML`);
* the path accessor `extractFromXML` (src/unnamed/part_000);
* the schema validator `validateXML` (src/utils/xmlValidator.ts);
* the case reconciler: `extractArendeInformation` and `generateModifiedXML`
  (src/pages/index.tsx), `handleAddFranvaro` and `handleRemoveFranvaro`
  (src/components/ArendeList.tsx).

Modelling conventions for JavaScript semantics:

* `undefined` is represented by `Option.none` at access sites;
* truthiness: `""` is falsy, every object/array and non-empty string is
  truthy (the model has no numbers, `null`, or booleans stored in trees:
  parsed XML trees only contain strings, objects and arrays);
* property access on strings (character indices, `length`) and the `length`
  property of arrays are outside the model: the code under verification
  never reads them.  Numeric indexing into arrays (`a["0"]`) is modelled,
  since `extractFromXML` forwards arbitrary path segments to bracket access;
* strict equality `===` between two objects/arrays is reference equality in
  JavaScript; the trees built by the parser are alias-free, and the code
  only ever compares a value against a string, so the model's
  `jsStrictEq` returns `false` unless both sides are strings.
-/

/-- A JavaScript value as stored in a parsed XML tree: a string, an object
(ordered association list of fields, as JS objects preserve insertion
order), or an array. -/
inductive JsVal : Type where
  | str (s : String)
  | obj (fields : List (String × JsVal))
  | arr (elems : List JsVal)
deriving Repr

/-- A canonical array-index string (what JS treats as an array index when
used in bracket access): a non-empty digit run with no leading zero except
`"0"` itself, read as a number. -/
def parseCanonicalNat (cs : List Char) : Option Nat :=
  if cs ≠ [] ∧ cs.all Char.isDigit = true ∧ (cs = ['0'] ∨ cs.head? ≠ some '0') then
    some (cs.foldl (fun n c => n * 10 + (c.toNat - '0'.toNat)) 0)
  else none

/-- JS property read `v[k]`: first-match association lookup on objects;
canonical numeric indices on arrays; `undefined` (`none`) otherwise. -/
def getField : JsVal → String → Option JsVal
  | .str _, _ => none
  | .obj fields, k => (fields.find? (fun p => p.1 = k)).map (·.2)
  | .arr elems, k =>
      match parseCanonicalNat k.data with
      | some n => elems.get? n
      | none => none

/-- JS truthiness of a value of the model (no numbers/booleans/null occur
in parsed trees): only the empty string is falsy. -/
def truthy : JsVal → Bool
  | .str s => s ≠ ""
  | .obj _ => true
  | .arr _ => true

/-- JS truthiness of a possibly-`undefined` value. -/
def truthyOpt : Option JsVal → Bool
  | none => false
  | some v => truthy v

/-- JS optional chaining `v?.k` applied to a possibly-`undefined` value. -/
def optChain (v : Option JsVal) (k : String) : Option JsVal :=
  match v with
  | none => none
  | some x => getField x k

/-- JS string coercion `String(v)` for the values of the model:
arrays join their coerced elements with commas, plain objects print as
`[object Object]`. -/
def jsToString : JsVal → String
  | .str s => s
  | .obj _ => "[object Object]"
  | .arr elems => String.intercalate "," (elems.attach.map (fun e => jsToString e.1))
decreasing_by
  have := List.sizeOf_lt_of_mem e.2
  simp only [JsVal.arr.sizeOf_spec]
  omega

/-- JS strict equality `a === b` as used by the code: every comparison in
the sources has at least one string operand, and the trees are alias-free,
so two non-string values never compare equal. -/
def jsStrictEq : JsVal → JsVal → Bool
  | .str a, .str b => a = b
  | _, _ => false

/-- `Array.isArray(v) ? v : [v]` — the normalization both the validator and
the reconciler use for multiplicity-bearing elements. -/
def toArr : JsVal → List JsVal
  | .arr elems => elems
  | v => [v]

/-- `x || d` on a possibly-`undefined` value with a string default,
coercing the kept value to a string (as `parseInt` does to its argument). -/
def jsOrString (v : Option JsVal) (d : String) : String :=
  match v with
  | some x => if truthy x then jsToString x else d
  | none => d

/-- Object-literal field write `{ ...fields, k: v }`: replaces the first
occurrence of `k` in place, or appends `k` at the end when absent —
JS object spread keeps an overridden key at its original position. -/
def setField (fields : List (String × JsVal)) (k : String) (v : JsVal) :
    List (String × JsVal) :=
  if (fields.find? (fun p => p.1 = k)).isSome then
    fields.map (fun p => if p.1 = k then (k, v) else p)
  else
    fields ++ [(k, v)]

/-- Field write `{ ...fields, k: undefined }`, modelled as removal of the
key: reading the key yields `undefined` either way, and `js2xml` skips
`undefined` values when serializing, so the two are observationally equal
for every operation in the sources. -/
def removeField (fields : List (String × JsVal)) (k : String) :
    List (String × JsVal) :=
  fields.filter (fun p => p.1 ≠ k)

/-- Object spread `{ ...v }` of a possibly-`undefined` value: objects copy
their fields, arrays and strings copy their indexed elements, `undefined`
spreads to nothing. -/
def spreadFields : Option JsVal → List (String × JsVal)
  | none => []
  | some (.obj fields) => fields
  | some (.arr elems) => (elems.enum.map (fun p => (toString p.1, p.2)))
  | some (.str s) => (s.data.enum.map (fun p => (toString p.1, JsVal.str (String.mk [p.2]))))

/-! ## Character classes and the regular expressions of the validator -/

/-- XML whitespace. -/
def isXmlWs (c : Char) : Bool := c = ' ' || c = '\t' || c = '\n' || c = '\r'

/-- JS regex `\w` (no `u` flag): ASCII letters, digits and underscore. -/
def isWordChar (c : Char) : Bool := c.isAlphanum || c = '_'

/-- JS regex test `/^\d{12}$/.test s`: exactly twelve ASCII digits. -/
def testTwelveDigits (s : String) : Bool :=
  s.data.length = 12 && s.data.all Char.isDigit

/-- Inside the email pattern's domain `\w+`, still needs `(\w)*\.\w`
(the trailing `\w+` matches as soon as one word character follows the
dot); backtracking is expressed as a disjunction. -/
def emailNeedsDot : List Char → Bool
  | [] => false
  | c :: rest =>
      (c = '.' && (match rest with | d :: _ => isWordChar d | [] => false))
        || (isWordChar c && emailNeedsDot rest)

/-- After the email pattern's `@`, needs `\w+\.\w+`. -/
def emailNeedsDomain : List Char → Bool
  | [] => false
  | c :: rest => isWordChar c && emailNeedsDot rest

/-- After the first mandatory word character of the local part, the email
pattern still needs `(\w)*@\w+\.\w+`. -/
def emailAfterFirst : List Char → Bool
  | [] => false
  | c :: rest => (c = '@' && emailNeedsDomain rest) || (isWordChar c && emailAfterFirst rest)

/-- Whether the pattern `\w+@\w+\.\w+` matches starting exactly here. -/
def emailMatchAt : List Char → Bool
  | [] => false
  | c :: rest => isWordChar c && emailAfterFirst rest

/-- Unanchored regex search: the pattern may match at any position. -/
def emailSearch : List Char → Bool
  | [] => false
  | c :: rest => emailMatchAt (c :: rest) || emailSearch rest

/-- JS regex test `/\w+@\w+\.\w+/.test s`. -/
def emailTest (s : String) : Bool := emailSearch s.data

/-- The maximal run of leading decimal digits, as a number; `none` when
there is none (`parseInt` yields `NaN` there). -/
def parseIntDigits (cs : List Char) : Option Nat :=
  match cs.takeWhile Char.isDigit with
  | [] => none
  | ds => some (ds.foldl (fun a c => a * 10 + (c.toNat - '0'.toNat)) 0)

/-- Sign handling of `parseInt`. -/
def parseIntSigned : List Char → Option Int
  | '-' :: cs => (parseIntDigits cs).map (fun n => -(n : Int))
  | '+' :: cs => (parseIntDigits cs).map (fun n => (n : Int))
  | cs => (parseIntDigits cs).map (fun n => (n : Int))

/-- JS `parseInt(s, 10)`: skip leading whitespace, optional sign, then the
maximal run of leading decimal digits; `none` models `NaN` (no digits). -/
def parseIntJs (s : String) : Option Int :=
  parseIntSigned (s.data.dropWhile isXmlWs)

/-- `Array.prototype.splice(i, 1)` on a list, returning the array as left
after the removal: a negative start counts from the end (clamped to 0), a
start at or beyond the length removes nothing.  `splice` never throws for
any index. -/
def spliceRemoveAt {α : Type} (l : List α) (start : Nat) : List α :=
  l.take start ++ l.drop (start + 1)

/-- `Array.prototype.splice(i, 1)` proper: JS clamps the start index, then
`spliceRemoveAt` removes at most one element there. -/
def spliceRemoveOne {α : Type} (l : List α) (i : Int) : List α :=
  spliceRemoveAt l (if i < 0 then (max ((l.length : Int) + i) 0).toNat
                    else min i.toNat l.length)

/-! ## The XML codec

The sources delegate parsing and serialization to the third-party `xml-js`
library (`xml2js` / `js2xml` with `compact: true`, `spaces: 2`,
`ignoreComment: true`, `fullTagEmptyElement: true`), whose code is not part
of the repository.  The codec below is therefore modelled from the spec
(§4.1): `parse` produces the compact tree (repeated siblings with the same
tag collapse to a sequence, exactly one occurrence stays a single node),
drops comments and whitespace-only text, and fails on input that is not
well-formed; `generate` always emits an XML declaration with encoding
`utf-8` and a non-standalone designation, writes empty elements as explicit
open/close pairs, and pretty-prints with a fixed indent width of two.

Modelling boundaries (each narrows the set of inputs accepted by `parse`,
never the set of trees it can produce): attribute values must use double
quotes; only the five predefined entities are recognized; CDATA sections,
doctypes and processing instructions other than a leading XML declaration
are rejected; element names are non-empty runs of name characters and the
reserved names `_text` / `_attributes` are rejected as tags so that the
compact representation cannot collide. -/

/-- Characters accepted in element and attribute names. -/
def isNameChar (c : Char) : Bool :=
  c.isAlphanum || c = '_' || c = '-' || c = '.' || c = ':'

/-- Drop leading XML whitespace. -/
def skipWs : List Char → List Char
  | [] => []
  | c :: rest => if isXmlWs c then skipWs rest else c :: rest

/-- Lex a name: the maximal non-empty run of name characters. -/
def lexName (cs : List Char) : Option (String × List Char) :=
  match cs.takeWhile isNameChar with
  | [] => none
  | n => some (String.mk n, cs.dropWhile isNameChar)

/-- Decode one predefined entity reference after its `&`: the characters up
to the next `;` name the entity. -/
def readEntity (cs : List Char) : Option (Char × List Char) :=
  match cs.dropWhile (fun c => c ≠ ';') with
  | ';' :: r =>
      if cs.takeWhile (fun c => c ≠ ';') = ['a', 'm', 'p'] then some ('&', r)
      else if cs.takeWhile (fun c => c ≠ ';') = ['l', 't'] then some ('<', r)
      else if cs.takeWhile (fun c => c ≠ ';') = ['g', 't'] then some ('>', r)
      else if cs.takeWhile (fun c => c ≠ ';') = ['q', 'u', 'o', 't'] then some ('"', r)
      else if cs.takeWhile (fun c => c ≠ ';') = ['a', 'p', 'o', 's'] then some ('\'', r)
      else none
  | _ => none

/-- Lex a text run: decoded characters up to (not including) the next `<`
or the end of input.  The fuel only serves structural recursion; any fuel
above the input length behaves identically. -/
def lexText : Nat → List Char → Option (List Char × List Char)
  | 0, _ => none
  | _, [] => some ([], [])
  | fuel + 1, c :: rest =>
      if c = '<' then some ([], c :: rest)
      else if c = '&' then
        match readEntity rest with
        | some (d, r) => (lexText fuel r).map (fun p => (d :: p.1, p.2))
        | none => none
      else (lexText fuel rest).map (fun p => (c :: p.1, p.2))

/-- `lexText` with always-sufficient fuel. -/
def lexTextF (cs : List Char) : Option (List Char × List Char) :=
  lexText (cs.length + 1) cs

/-- Lex a double-quoted attribute value after its opening quote: decoded
characters up to the closing quote, which is consumed. -/
def lexAttrVal : Nat → List Char → Option (List Char × List Char)
  | 0, _ => none
  | _, [] => none
  | fuel + 1, c :: rest =>
      if c = '"' then some ([], rest)
      else if c = '&' then
        match readEntity rest with
        | some (d, r) => (lexAttrVal fuel r).map (fun p => (d :: p.1, p.2))
        | none => none
      else (lexAttrVal fuel rest).map (fun p => (c :: p.1, p.2))

/-- `lexAttrVal` with always-sufficient fuel. -/
def lexAttrValF (cs : List Char) : Option (List Char × List Char) :=
  lexAttrVal (cs.length + 1) cs

/-- Lex the attribute list of a start tag, stopping (without consuming)
at `>` or `/`. -/
def lexAttrs : Nat → List Char → Option (List (String × String) × List Char)
  | 0, _ => none
  | fuel + 1, cs =>
      match skipWs cs with
      | [] => none
      | c :: rest =>
          if c = '>' || c = '/' then some ([], c :: rest)
          else
            match lexName (c :: rest) with
            | none => none
            | some (n, r1) =>
                match skipWs r1 with
                | '=' :: r2 =>
                    match skipWs r2 with
                    | '"' :: r3 =>
                        match lexAttrValF r3 with
                        | some (v, r4) =>
                            (lexAttrs fuel r4).map
                              (fun p => ((n, String.mk v) :: p.1, p.2))
                        | none => none
                    | _ => none
                | _ => none

/-- `lexAttrs` with always-sufficient fuel. -/
def lexAttrsF (cs : List Char) : Option (List (String × String) × List Char) :=
  lexAttrs (cs.length + 1) cs

/-- Skip the remainder of a comment after `<!--`, through the first
`-->`. -/
def skipComment : List Char → Option (List Char)
  | '-' :: '-' :: '>' :: r => some r
  | _ :: r => skipComment r
  | [] => none

/-- Skip the remainder of any XML declaration after `<?`, through `?>`. -/
def skipDeclEnd : List Char → Option (List Char)
  | '?' :: '>' :: r => some r
  | _ :: r => skipDeclEnd r
  | [] => none

/-- Skip a leading XML declaration if present. -/
def skipDecl (cs : List Char) : Option (List Char) :=
  match cs with
  | '<' :: '?' :: r => skipDeclEnd r
  | _ => some cs

/-- Append a decoded text run to the accumulated text of the surrounding
element; whitespace-only runs are dropped (`xml-js` does not capture spaces
between elements). -/
def addTextRun (textAcc : String) (run : List Char) : String :=
  if run.all isXmlWs then textAcc else textAcc ++ String.mk run

/-- Record one parsed child under its tag in the compact representation:
a repeated tag collapses into an array in place, a new tag is appended. -/
def addChild (children : List (String × JsVal)) (tag : String) (v : JsVal) :
    List (String × JsVal) :=
  match children.find? (fun p => p.1 = tag) with
  | some (_, .arr xs) =>
      children.map (fun p => if p.1 = tag then (tag, JsVal.arr (xs ++ [v])) else p)
  | some (_, old) =>
      children.map (fun p => if p.1 = tag then (tag, JsVal.arr [old, v]) else p)
  | none => children ++ [(tag, v)]

/-- Build a compact element node: optional `_attributes`, optional
`_text`, then one field per child tag in document order. -/
def mkElem (attrs : List (String × String)) (text : String)
    (children : List (String × JsVal)) : JsVal :=
  .obj ((if attrs.isEmpty then []
         else [("_attributes", JsVal.obj (attrs.map (fun a => (a.1, JsVal.str a.2))))])
    ++ (if text = "" then [] else [("_text", JsVal.str text)])
    ++ children)

/-- A parsing job: one element (input must start at its `<`), or the
content sequence of an element (text runs, comments and child elements up
to the enclosing closing tag or the end of input). -/
inductive ParseJob : Type where
  | elem (cs : List Char)
  | content (cs : List Char) (textAcc : String) (childAcc : List (String × JsVal))

/-- The result of a parsing job. -/
inductive ParseOut : Type where
  | elem (tag : String) (v : JsVal) (rest : List Char)
  | content (text : String) (children : List (String × JsVal)) (rest : List Char)

/-- The recursive core of the parser.  The fuel only serves structural
recursion; `parseXML` supplies one unit per input character plus one, which
is sufficient for every input the lemmas below consider. -/
def parseStep : Nat → ParseJob → Option ParseOut
  | 0, _ => none
  | fuel + 1, .content cs textAcc childAcc =>
      match lexTextF cs with
      | none => none
      | some (run, rest) =>
          match rest with
          | [] => some (.content (addTextRun textAcc run) childAcc [])
          | '<' :: '/' :: r => some (.content (addTextRun textAcc run) childAcc ('<' :: '/' :: r))
          | '<' :: '!' :: '-' :: '-' :: r =>
              match skipComment r with
              | some r2 => parseStep fuel (.content r2 (addTextRun textAcc run) childAcc)
              | none => none
          | '<' :: r =>
              match parseStep fuel (.elem ('<' :: r)) with
              | some (.elem tag v rest2) =>
                  parseStep fuel (.content rest2 (addTextRun textAcc run) (addChild childAcc tag v))
              | _ => none
          | _ => none
  | fuel + 1, .elem cs =>
      match cs with
      | '<' :: r =>
          match lexName r with
          | none => none
          | some (tag, r1) =>
              if tag = "_text" || tag = "_attributes" then none
              else
                match lexAttrsF r1 with
                | none => none
                | some (attrs, r2) =>
                    match r2 with
                    | '/' :: '>' :: r3 => some (.elem tag (mkElem attrs "" []) r3)
                    | '>' :: r3 =>
                        match parseStep fuel (.content r3 "" []) with
                        | some (.content text children r4) =>
                            match r4 with
                            | '<' :: '/' :: r5 =>
                                match lexName r5 with
                                | some (ctag, r6) =>
                                    if ctag = tag then
                                      match skipWs r6 with
                                      | '>' :: r7 =>
                                          some (.elem tag (mkElem attrs text children) r7)
                                      | _ => none
                                    else none
                                | none => none
                            | _ => none
                        | _ => none
                    | _ => none
      | _ => none

/-- **Modelled from the spec:** `parseXML` of `src/unnamed/part_000`
delegates to `xml-js`'s `xml2js` (whose code is not in the repository) with
`compact: true` and `ignoreComment: true` and throws
`Error("Failed to parse XML file")` on malformed input.  The model parses
an optional XML declaration, then exactly one root element, into the
compact tree; `none` models the thrown error. -/
def parseXML (s : String) : Option JsVal :=
  match skipDecl (skipWs s.data) with
  | none => none
  | some cs =>
      match parseStep (cs.length + 1) (.content (skipWs cs) "" []) with
      | some (.content t [(tag, .obj fs)] []) =>
          if t = "" then some (.obj [(tag, .obj fs)]) else none
      | _ => none

/-! ### The generator -/

/-- Escape one character of element text (`js2xml` escapes `&`, `<`, `>`). -/
def escTextChar (c : Char) : List Char :=
  if c = '&' then "&amp;".data
  else if c = '<' then "&lt;".data
  else if c = '>' then "&gt;".data
  else [c]

/-- Escape element text. -/
def escText (s : String) : List Char := s.data.flatMap escTextChar

/-- Escape one character of an attribute value (also `"`). -/
def escAttrChar (c : Char) : List Char :=
  if c = '"' then "&quot;".data else escTextChar c

/-- Escape an attribute value. -/
def escAttr (s : String) : List Char := s.data.flatMap escAttrChar

/-- The attributes of a compact element: the fields of its `_attributes`
object, values coerced to strings. -/
def attrsOf (v : JsVal) : List (String × String) :=
  match getField v "_attributes" with
  | some (.obj as) => as.map (fun p => (p.1, jsToString p.2))
  | _ => []

/-- The text of a compact element: its `_text` field, coerced to a string. -/
def textOf (v : JsVal) : Option String :=
  match getField v "_text" with
  | some t => some (jsToString t)
  | none => none

/-- The child fields of a compact element: everything except the reserved
`_attributes` and `_text` keys. -/
def childFields (v : JsVal) : List (String × JsVal) :=
  match v with
  | .obj fs => fs.filter (fun p => p.1 ≠ "_attributes" && p.1 ≠ "_text")
  | _ => []

/-- Indentation: the fixed indent width is two spaces per level. -/
def indentChars (n : Nat) : List Char := List.replicate (2 * n) ' '

/-- Serialize an attribute list. -/
def genAttrs (attrs : List (String × String)) : List Char :=
  attrs.flatMap (fun a => ' ' :: (a.1.data ++ '=' :: '"' :: (escAttr a.2 ++ ['"'])))

/-- The XML declaration `generate` always emits (spec §4.1). -/
def xmlDeclChars : List Char :=
  "<?xml version=\"1.0\" encoding=\"utf-8\" standalone=\"no\"?>".data

mutual

/-- Serialize one compact element (tag and value) at an indentation level.
Empty elements are emitted as explicit open/close pairs; an element with
both text and children writes the text and the children inline (so that
re-parsing does not glue decorative whitespace onto the text); an element
with children only is pretty-printed, one child per line. -/
def genOne (indent : Nat) (tag : String) (v : JsVal) : List Char :=
  match v with
  | .str s =>
      '<' :: (tag.data ++ '>' :: (escText s ++ ('<' :: '/' :: (tag.data ++ ['>']))))
  | .arr xs => genSeq true indent tag xs
  | .obj fs =>
      ('<' :: (tag.data ++ (genAttrs (attrsOf (.obj fs)) ++ ['>'])))
      ++ (match textOf (.obj fs) with
          | some s => escText s ++ genFields true indent fs
          | none =>
              if (childFields (.obj fs)).isEmpty then []
              else genFields false (indent + 1) fs ++ ('\n' :: indentChars indent))
      ++ ('<' :: '/' :: (tag.data ++ ['>']))
termination_by sizeOf v

/-- Serialize the child fields of an element in order, skipping the
reserved `_attributes` and `_text` keys; `inline` suppresses the
pretty-printing newlines. -/
def genFields (inlineMode : Bool) (indent : Nat) (fs : List (String × JsVal)) :
    List Char :=
  match fs with
  | [] => []
  | (k, v) :: rest =>
      (if k = "_attributes" || k = "_text" then []
       else
         match v with
         | .arr xs => genSeq inlineMode indent k xs
         | w => (if inlineMode then [] else '\n' :: indentChars indent) ++ genOne indent k w)
      ++ genFields inlineMode indent rest
termination_by sizeOf fs

/-- Serialize a sequence of repeated siblings under one tag. -/
def genSeq (inlineMode : Bool) (indent : Nat) (tag : String) (xs : List JsVal) :
    List Char :=
  match xs with
  | [] => []
  | x :: rest =>
      ((if inlineMode then [] else '\n' :: indentChars indent) ++ genOne indent tag x)
      ++ genSeq inlineMode indent tag rest
termination_by sizeOf xs

end

/-- **Modelled from the spec:** `generateXML` of `src/unnamed/part_000`
delegates to `xml-js`'s `js2xml` (whose code is not in the repository) with
`compact: true`, `spaces: 2` and `fullTagEmptyElement: true`.  The model
always emits the XML declaration (encoding `utf-8`, non-standalone), then
every field of the root object as an element at indentation level zero. -/
def generateXML (root : JsVal) : String :=
  match root with
  | .obj fs => String.mk (xmlDeclChars ++ genFields false 0 fs)
  | _ => String.mk xmlDeclChars

/-! ## The path accessor (`extractFromXML`, src/unnamed/part_000) -/

/-- The descent loop of `extractFromXML`: `for (const part of parts)
{ if (!current[part]) return undefined; current = current[part]; }`. -/
def extractSegs : List String → JsVal → Option JsVal
  | [], cur => some cur
  | p :: ps, cur =>
      match getField cur p with
      | some v => if truthy v then extractSegs ps v else none
      | none => none

/-- JS `path.split(".")` over the path's characters: the segments between
the dots, in order, empty segments kept. -/
def splitDotAux : List Char → List Char → List String
  | [], acc => [String.mk acc.reverse]
  | '.' :: rest, acc => String.mk acc.reverse :: splitDotAux rest []
  | c :: rest, acc => splitDotAux rest (c :: acc)

/-- JS `path.split(".")`. -/
def splitDot (path : String) : List String := splitDotAux path.data []

/-- `extractFromXML(xmlObject, path)`: splits the path on `.` and descends
one segment at a time, returning `undefined` (`none`) as soon as a lookup
is falsy; `if (!xmlObject) return undefined` guards the root. -/
def extractFromXML (xmlObject : Option JsVal) (path : String) : Option JsVal :=
  match xmlObject with
  | none => none
  | some x => if truthy x then extractSegs (splitDot path) x else none

/-- The property names of `Object.prototype` (ECMA-262 2024, Annex B
included): bracket access on any plain object reaches these through the
prototype chain even without an own key. -/
def objectProtoNames : List String :=
  ["constructor", "hasOwnProperty", "isPrototypeOf", "propertyIsEnumerable",
   "toLocaleString", "toString", "valueOf", "__proto__", "__defineGetter__",
   "__defineSetter__", "__lookupGetter__", "__lookupSetter__"]

/-- The property names `Array.prototype` adds (ECMA-262 2024), plus the
instances' own `length`. -/
def arrayProtoNames : List String :=
  ["length", "at", "concat", "copyWithin", "entries", "every", "fill",
   "filter", "find", "findIndex", "findLast", "findLastIndex", "flat",
   "flatMap", "forEach", "includes", "indexOf", "join", "keys",
   "lastIndexOf", "map", "pop", "push", "reduce", "reduceRight", "reverse",
   "shift", "slice", "some", "sort", "splice", "toReversed", "toSorted",
   "toSpliced", "unshift", "values", "with"]

/-- The property names `String.prototype` adds (ECMA-262 2024, Annex B
included), plus the instances' own `length`. -/
def stringProtoNames : List String :=
  ["length", "at", "charAt", "charCodeAt", "codePointAt", "concat",
   "endsWith", "includes", "indexOf", "isWellFormed", "lastIndexOf",
   "localeCompare", "match", "matchAll", "normalize", "padEnd", "padStart",
   "repeat", "replace", "replaceAll", "search", "slice", "split",
   "startsWith", "substring", "toLocaleLowerCase", "toLocaleUpperCase",
   "toLowerCase", "toUpperCase", "toWellFormed", "trim", "trimEnd",
   "trimStart", "substr", "anchor", "big", "blink", "bold", "fixed",
   "fontcolor", "fontsize", "italics", "link", "small", "strike", "sub",
   "sup", "trimLeft", "trimRight"]

/-- `phantomKey v k`: JS bracket access `v[k]` can produce a value although
`v` has no own member `k` — an inherited member of the standard prototypes,
a string's own `length`, or a character index of a string.  The
own-property model `getField` returns `none` there, so the defensive
theorem asserts the absent sentinel only away from these keys. -/
def phantomKey : JsVal → String → Bool
  | .obj _, k => objectProtoNames.contains k
  | .arr _, k => objectProtoNames.contains k || arrayProtoNames.contains k
  | .str _, k => objectProtoNames.contains k || stringProtoNames.contains k
      || (parseCanonicalNat k.data).isSome

/-! ## The schema validator (`validateXML`, src/utils/xmlValidator.ts) -/

/-- `getTextContent(obj)` of the validator (the same helper is repeated in
src/pages/index.tsx): `''` for a falsy value, a string itself, else the
value's truthy `_text` (returned as-is), else `''`. -/
def getTextContent (v : Option JsVal) : JsVal :=
  match v with
  | none => .str ""
  | some (.str s) => .str s
  | some x =>
      match getField x "_text" with
      | some t => if truthy t then t else .str ""
      | none => .str ""

/-- The recurring guard `!x.K || !getTextContent(x.K)`. -/
def missingOrEmpty (x : JsVal) (k : String) : Bool :=
  !truthyOpt (getField x k) || !truthy (getTextContent (getField x k))

/-- A guarded read: the value of a field known to be truthy. -/
def fieldOr (x : JsVal) (k : String) : JsVal := (getField x k).getD (.str "")

/-- An error message carrying a 1-based item index. -/
def idxMsg (base : String) (i : Nat) : String := base ++ toString (i + 1)

/-- The root-namespace rule. -/
def nsErrors (root : JsVal) : List String :=
  if !truthyOpt (getField root "_attributes")
      || !truthyOpt (optChain (getField root "_attributes") "xmlns:xsi")
      || !truthyOpt (optChain (getField root "_attributes") "xmlns")
  then ["Required XML namespaces are missing"] else []

/-- The `TekniskKontaktperson` rules. -/
def kontaktErrors (kp : JsVal) : List String :=
  (if missingOrEmpty kp "Namn" then ["Namn is missing in TekniskKontaktperson"] else [])
  ++ (if missingOrEmpty kp "Telefon" then ["Telefon is missing in TekniskKontaktperson"] else [])
  ++ (if missingOrEmpty kp "Epostadress" then ["Epostadress is missing in TekniskKontaktperson"]
      else if !emailTest (jsToString (getTextContent (getField kp "Epostadress")))
      then ["Epostadress has invalid format"] else [])

/-- The `Avsandare` rules, given a truthy `Avsandare` value. -/
def avsandareContentErrors (av : JsVal) : List String :=
  (if missingOrEmpty av "Programnamn" then ["Programnamn is missing in Avsandare"] else [])
  ++ (if missingOrEmpty av "Organisationsnummer"
      then ["Organisationsnummer is missing in Avsandare"]
      else if !testTwelveDigits (jsToString (getTextContent (getField av "Organisationsnummer")))
      then ["Organisationsnummer must be 12 digits"] else [])
  ++ (if !truthyOpt (getField av "TekniskKontaktperson")
      then ["TekniskKontaktperson is missing in Avsandare"]
      else kontaktErrors (fieldOr av "TekniskKontaktperson"))
  ++ (if missingOrEmpty av "Skapad" then ["Skapad is missing in Avsandare"] else [])

/-- The `Avsandare` section. -/
def avsandareErrors (root : JsVal) : List String :=
  if !truthyOpt (getField root "Avsandare")
  then ["Required element Avsandare is missing"]
  else avsandareContentErrors (fieldOr root "Avsandare")

/-- The rules applied to the `Arendeinformation` of one `Blankett`. -/
def blankettInfoErrors (i : Nat) (ai : JsVal) : List String :=
  (if missingOrEmpty ai "Arendeagare" then [idxMsg "Arendeagare is missing in Blankett " i]
   else if !testTwelveDigits (jsToString (getTextContent (getField ai "Arendeagare")))
   then [idxMsg "Arendeagare must be 12 digits in Blankett " i] else [])
  ++ (if missingOrEmpty ai "Period" then [idxMsg "Period is missing in Blankett " i] else [])

/-- The rules applied to one `Blankett` (0-based position `i`; messages
are 1-based). -/
def blankettItemErrors (i : Nat) (b : JsVal) : List String :=
  (if !truthyOpt (getField b "Arendeinformation")
   then [idxMsg "Arendeinformation is missing in Blankett " i]
   else blankettInfoErrors i (fieldOr b "Arendeinformation"))
  ++ (if !truthyOpt (getField b "Blankettinnehall")
      then [idxMsg "Blankettinnehall is missing in Blankett " i] else [])

/-- The `Blankett` section: requires at least one `Blankett`, normalizes a
single occurrence to a one-element sequence, then applies the per-item
rules. -/
def blankettErrors (root : JsVal) : List String :=
  if !truthyOpt (getField root "Blankett") then ["No Blankett elements found"]
  else (toArr (fieldOr root "Blankett")).enum.flatMap (fun p => blankettItemErrors p.1 p.2)

/-- The rules applied to one `Franvarouppgift`. -/
def franvaroItemErrors (i : Nat) (f : JsVal) : List String :=
  (if missingOrEmpty f "AgRegistreradId"
   then [idxMsg "AgRegistreradId is missing in Franvarouppgift " i] else [])
  ++ (if missingOrEmpty f "BetalningsmottagarId"
      then [idxMsg "BetalningsmottagarId is missing in Franvarouppgift " i]
      else if !testTwelveDigits (jsToString (getTextContent (getField f "BetalningsmottagarId")))
      then [idxMsg "BetalningsmottagarId must be 12 digits in Franvarouppgift " i] else [])
  ++ (if missingOrEmpty f "FranvaroDatum"
      then [idxMsg "FranvaroDatum is missing in Franvarouppgift " i] else [])
  ++ (if missingOrEmpty f "FranvaroSpecifikationsnummer"
      then [idxMsg "FranvaroSpecifikationsnummer is missing in Franvarouppgift " i] else [])
  ++ (if missingOrEmpty f "FranvaroTyp"
      then [idxMsg "FranvaroTyp is missing in Franvarouppgift " i]
      else if !(jsStrictEq (getTextContent (getField f "FranvaroTyp")) (.str "TILLFALLIG_FORALDRAPENNING")
                || jsStrictEq (getTextContent (getField f "FranvaroTyp")) (.str "FORALDRAPENNING"))
      then [idxMsg "FranvaroTyp must be either TILLFALLIG_FORALDRAPENNING or FORALDRAPENNING in Franvarouppgift " i]
      else [])
  ++ (if missingOrEmpty f "RedovisningsPeriod"
      then [idxMsg "RedovisningsPeriod is missing in Franvarouppgift " i] else [])
  ++ (if jsStrictEq (getTextContent (getField f "FranvaroTyp")) (.str "FORALDRAPENNING")
      then (if !truthy (getTextContent (getField f "FranvaroProcentFP"))
                && !truthy (getTextContent (getField f "FranvaroTimmarFP"))
            then [idxMsg "Either FranvaroProcentFP or FranvaroTimmarFP is required for FORALDRAPENNING in Franvarouppgift " i]
            else [])
      else [])
  ++ (if jsStrictEq (getTextContent (getField f "FranvaroTyp")) (.str "TILLFALLIG_FORALDRAPENNING")
      then (if !truthy (getTextContent (getField f "FranvaroProcentTFP"))
                && !truthy (getTextContent (getField f "FranvaroTimmarTFP"))
            then [idxMsg "Either FranvaroProcentTFP or FranvaroTimmarTFP is required for TILLFALLIG_FORALDRAPENNING in Franvarouppgift " i]
            else [])
      else [])

/-- The `Franvarouppgift` section: validated only when present, a single
occurrence normalized to a one-element sequence. -/
def franvaroErrors (root : JsVal) : List String :=
  if !truthyOpt (getField root "Franvarouppgift") then []
  else (toArr (fieldOr root "Franvarouppgift")).enum.flatMap (fun p => franvaroItemErrors p.1 p.2)

/-- The validator after a successful parse: short-circuits only when the
`Skatteverket` root element is absent, otherwise accumulates every
section's errors in source order. -/
def validateParsed (parsedXml : JsVal) : Bool × List String :=
  if !truthyOpt (getField parsedXml "Skatteverket")
  then (false, ["XML does not contain a Skatteverket root element"])
  else
    ((nsErrors (fieldOr parsedXml "Skatteverket")
      ++ avsandareErrors (fieldOr parsedXml "Skatteverket")
      ++ blankettErrors (fieldOr parsedXml "Skatteverket")
      ++ franvaroErrors (fieldOr parsedXml "Skatteverket")).isEmpty,
     nsErrors (fieldOr parsedXml "Skatteverket")
      ++ avsandareErrors (fieldOr parsedXml "Skatteverket")
      ++ blankettErrors (fieldOr parsedXml "Skatteverket")
      ++ franvaroErrors (fieldOr parsedXml "Skatteverket"))

/-- `validateXML(xmlString)`: an empty input, a parse failure (the thrown
`Error("Failed to parse XML file")` is caught and wrapped) and a missing
root element each yield `valid=false` with a single explanatory error;
otherwise every rule's violations accumulate.  The function never
throws. -/
def validateXML (s : String) : Bool × List String :=
  if s = "" then (false, ["No XML content provided"])
  else
    match parseXML s with
    | none => (false, ["Failed to validate XML: Failed to parse XML file"])
    | some t => validateParsed t

/-! ## The case reconciler (src/pages/index.tsx, src/components/ArendeList.tsx) -/

/-- The per-case object built by `extractArendeInformation`
(src/pages/index.tsx lines 95-102).  The derived scalar fields hold
whatever `getTextContent` returned for them. -/
structure Arende : Type where
  index : Nat
  arendeAgare : JsVal
  period : JsVal
  betalningsmottagarId : JsVal
  blankettInnehall : JsVal
  franvaroList : List JsVal
deriving Repr

/-- The filter of `extractArendeInformation`:
`blankett.Blankettinnehall && blankett.Blankettinnehall.IU`. -/
def hasIU (blankett : JsVal) : Bool :=
  truthyOpt (getField blankett "Blankettinnehall")
    && truthyOpt (optChain (getField blankett "Blankettinnehall") "IU")

/-- The composite-key match for one pre-existing `Franvarouppgift`:
recipient id and reporting period must both equal the case's. -/
def franvaroMatches (betalId period f : JsVal) : Bool :=
  jsStrictEq (getTextContent (getField f "BetalningsmottagarId")) betalId
    && jsStrictEq (getTextContent (getField f "RedovisningsPeriod")) period

/-- The `existingFranvaro` computation of `extractArendeInformation`:
nothing when the document-level `Franvarouppgift` is absent or falsy; a
filter over the array when it is an array; the single record itself, when
it matches, otherwise. -/
def existingFranvaroFor (parsedXml betalId period : JsVal) : List JsVal :=
  match optChain (getField parsedXml "Skatteverket") "Franvarouppgift" with
  | none => []
  | some fv =>
      if truthy fv = false then []
      else
        match fv with
        | .arr fs => fs.filter (franvaroMatches betalId period)
        | v => if franvaroMatches betalId period v then [v] else []

/-- The body of `extractArendeInformation`'s `map` over the filtered
forms.  `none` models the `TypeError` thrown when `Arendeinformation` is
`undefined` (so `arendeInfo.Arendeagare` throws) or the content block has
no reachable `IU` object (so `iuData.BetalningsmottagareIUGROUP` throws);
neither happens for a form that passed the `hasIU` filter combined with a
truthy `Arendeinformation`. -/
def mkArende (parsedXml : JsVal) (i : Nat) (blankett : JsVal) : Option Arende :=
  match getField blankett "Arendeinformation" with
  | none => none
  | some arendeInfo =>
      match getField blankett "Blankettinnehall" with
      | none => none
      | some blankettInnehall =>
          match getField blankettInnehall "IU" with
          | none => none
          | some iuData =>
              some { index := i,
                     arendeAgare := getTextContent (getField arendeInfo "Arendeagare"),
                     period := getTextContent (getField arendeInfo "Period"),
                     betalningsmottagarId :=
                       getTextContent (optChain (optChain
                         (getField iuData "BetalningsmottagareIUGROUP")
                         "BetalningsmottagareIDChoice") "BetalningsmottagarId"),
                     blankettInnehall := blankettInnehall,
                     franvaroList :=
                       existingFranvaroFor parsedXml
                         (getTextContent (optChain (optChain
                           (getField iuData "BetalningsmottagareIUGROUP")
                           "BetalningsmottagareIDChoice") "BetalningsmottagarId"))
                         (getTextContent (getField arendeInfo "Period")) }

/-- A `map` whose body can throw: `none` as soon as one element maps to
`none` (JS aborts the whole `map` at the first `TypeError`). -/
def traverseOpt {α β : Type} (g : α → Option β) : List α → Option (List β)
  | [] => some []
  | x :: rest =>
      match g x with
      | none => none
      | some y => (traverseOpt g rest).map (fun ys => y :: ys)

/-- The normalized sequence of declaration forms the reconciler iterates:
`Array.isArray` normalization of `parsedXml.Skatteverket?.Blankett || []`. -/
def blankettSeq (parsedXml : JsVal) : List JsVal :=
  toArr (match optChain (getField parsedXml "Skatteverket") "Blankett" with
         | some v => if truthy v then v else .arr []
         | none => .arr [])

/-- The normalized sequence of document-level absence records: empty when
`parsedXml.Skatteverket?.Franvarouppgift` is absent or falsy, the array's
elements when it is an array, the single record otherwise. -/
def franvaroSeq (parsedXml : JsVal) : List JsVal :=
  match optChain (getField parsedXml "Skatteverket") "Franvarouppgift" with
  | none => []
  | some fv => if truthy fv then toArr fv else []

/-- `extractArendeInformation` (src/pages/index.tsx): normalizes
`parsedXml.Skatteverket?.Blankett || []` to a sequence, keeps the forms
whose content block contains an `IU` sub-structure, and builds one
`Arende` per kept form; `none` models a thrown `TypeError`. -/
def extractArendeInformation (parsedXml : JsVal) : Option (List Arende) :=
  traverseOpt (fun p => mkArende parsedXml p.1 p.2)
    ((blankettSeq parsedXml).filter hasIU).enum

/-- The values the absence form hands to `handleAddFranvaro`
(the `FormData` of src/components/FranvaroForm.tsx); an empty string
stands for an absent optional value, as in the form state. -/
structure FranvaroInput : Type where
  betalningsmottagarId : String
  franvaroDatum : String
  franvaroTyp : String
  franvaroProcentFP : String
  franvaroTimmarFP : String
  franvaroProcentTFP : String
  franvaroTimmarTFP : String
deriving Repr

/-- One leaf element of a built absence record: a `_text` value and the
fixed `faltkod` attribute. -/
def fieldEl (text : JsVal) (kod : String) : JsVal :=
  .obj [("_text", text), ("_attributes", .obj [("faltkod", .str kod)])]

/-- The number read from one existing record by `handleAddFranvaro`:
`parseInt(f.FranvaroSpecifikationsnummer?._text || '0', 10)`; `none`
models `NaN`. -/
def specNrOf (f : JsVal) : Option Int :=
  parseIntJs (jsOrString (optChain (getField f "FranvaroSpecifikationsnummer") "_text") "0")

/-- All-or-nothing collection of a list of possibly-`NaN` numbers
(`Math.max` yields `NaN` as soon as one argument is `NaN`). -/
def seqOpt : List (Option Int) → Option (List Int)
  | [] => some []
  | none :: _ => none
  | some x :: rest => (seqOpt rest).map (fun xs => x :: xs)

/-- The `maxSpecNr` computation of `handleAddFranvaro`: `0` for an empty
list, otherwise `Math.max` of the parsed numbers (`none`, modelling `NaN`,
as soon as one of them is `NaN`). -/
def maxSpecNr (fs : List JsVal) : Option Int :=
  if fs.isEmpty then some 0
  else
    match seqOpt (fs.map specNrOf) with
    | some (x :: xs) => some (xs.foldl max x)
    | _ => none

/-- The new `Franvarouppgift` element built by `handleAddFranvaro`: base
fields with their fixed field codes in source order, then each optional
percentage/hours field only when its form value is truthy. -/
def newFranvaro (arende : Arende) (input : FranvaroInput) : JsVal :=
  .obj ([("AgRegistreradId", fieldEl arende.arendeAgare "201"),
         ("BetalningsmottagarId",
          fieldEl (if truthy arende.betalningsmottagarId then arende.betalningsmottagarId
                   else .str input.betalningsmottagarId) "215"),
         ("FranvaroDatum", fieldEl (.str input.franvaroDatum) "821"),
         ("FranvaroSpecifikationsnummer",
          fieldEl (.str (match maxSpecNr arende.franvaroList with
                         | some m => toString (m + 1)
                         | none => "NaN")) "822"),
         ("FranvaroTyp", fieldEl (.str input.franvaroTyp) "823"),
         ("RedovisningsPeriod", fieldEl arende.period "006")]
    ++ (if input.franvaroProcentFP ≠ "" then
          [("FranvaroProcentFP", fieldEl (.str input.franvaroProcentFP) "826")] else [])
    ++ (if input.franvaroTimmarFP ≠ "" then
          [("FranvaroTimmarFP", fieldEl (.str input.franvaroTimmarFP) "827")] else [])
    ++ (if input.franvaroProcentTFP ≠ "" then
          [("FranvaroProcentTFP", fieldEl (.str input.franvaroProcentTFP) "824")] else [])
    ++ (if input.franvaroTimmarTFP ≠ "" then
          [("FranvaroTimmarTFP", fieldEl (.str input.franvaroTimmarTFP) "825")] else []))

/-- `handleAddFranvaro` (src/components/ArendeList.tsx): appends the newly
built record to the case's list, never mutating the existing entries. -/
def handleAddFranvaro (arende : Arende) (input : FranvaroInput) : List JsVal :=
  arende.franvaroList ++ [newFranvaro arende input]

/-- `handleRemoveFranvaro` (src/components/ArendeList.tsx): a plain
`splice(franvaroIndex, 1)` on a copy of the case's list, with no bounds
check of its own. -/
def handleRemoveFranvaro (arende : Arende) (franvaroIndex : Int) : List JsVal :=
  spliceRemoveOne arende.franvaroList franvaroIndex

/-- The tree built by `generateModifiedXML` (src/pages/index.tsx lines
134-149) before serialization: the document-level `Franvarouppgift` is
replaced by the concatenation of every case's list (made `undefined`, here
removed, when that concatenation is empty) and `Avsandare.Programnamn._text`
is overridden with the fixed literal.  `none` models the `TypeError`
thrown by `parsedXml.Skatteverket.Avsandare.Programnamn` when
`Skatteverket` or `Avsandare` is missing. -/
def generateModifiedXMLTree (parsedXml : JsVal) (arendeInfoList : List Arende) :
    Option JsVal :=
  match getField parsedXml "Skatteverket" with
  | none => none
  | some sk =>
      match getField sk "Avsandare" with
      | none => none
      | some av =>
          some (.obj (setField (spreadFields (some parsedXml)) "Skatteverket"
            (.obj (setField
              (if 0 < (arendeInfoList.flatMap (fun a => a.franvaroList)).length then
                 setField (spreadFields (some sk)) "Franvarouppgift"
                   (.arr (arendeInfoList.flatMap (fun a => a.franvaroList)))
               else removeField (spreadFields (some sk)) "Franvarouppgift")
              "Avsandare"
              (.obj (setField (spreadFields (some av)) "Programnamn"
                (.obj (setField (spreadFields (getField av "Programnamn")) "_text"
                  (.str "Bokio och v√§nner")))))))))

/-- `generateModifiedXML` proper: `if (!parsedXml) return ''`, then the
tree surgery followed by `generateXML`. -/
def generateModifiedXML (parsedXml : JsVal) (arendeInfoList : List Arende) :
    Option String :=
  if truthy parsedXml = false then some ""
  else (generateModifiedXMLTree parsedXml arendeInfoList).map generateXML

/-! ## Concrete example inputs used by witnesses and counterexamples -/

/-- A minimal absence record carrying only a specification number. -/
def recSpec (n : String) : JsVal :=
  .obj [("FranvaroSpecifikationsnummer", .obj [("_text", .str n)])]

/-- A concrete case with the given absence list. -/
def arendeEx (fs : List JsVal) : Arende :=
  { index := 0, arendeAgare := .str "165560269986", period := .str "202101",
    betalningsmottagarId := .str "198201019999", blankettInnehall := .obj [],
    franvaroList := fs }

/-- A concrete form input (type `FORALDRAPENNING`, percentage 100). -/
def inputEx : FranvaroInput :=
  { betalningsmottagarId := "", franvaroDatum := "2021-01-05",
    franvaroTyp := "FORALDRAPENNING", franvaroProcentFP := "100",
    franvaroTimmarFP := "", franvaroProcentTFP := "", franvaroTimmarTFP := "" }

/-- A tree whose `a` field is a two-element sequence. -/
def seqDoc : JsVal := .obj [("a", .arr [.str "x", .str "y"])]

/-- A content block containing an income-record sub-structure for the
given recipient. -/
def iuBlock (recip : String) : JsVal :=
  .obj [("IU", .obj [("BetalningsmottagareIUGROUP",
    .obj [("BetalningsmottagareIDChoice",
      .obj [("BetalningsmottagarId", .str recip)])])])]

/-- A declaration form with the given period and recipient, with or
without an income-record sub-structure. -/
def mkBlankett (period recip : String) (withIU : Bool) : JsVal :=
  .obj [("Arendeinformation",
         .obj [("Arendeagare", .str "165560269986"), ("Period", .str period)]),
        ("Blankettinnehall", if withIU then iuBlock recip else .obj [])]

/-- A document-level absence record carrying only its composite key. -/
def frRec (recip period : String) : JsVal :=
  .obj [("BetalningsmottagarId", .str recip), ("RedovisningsPeriod", .str period)]

/-- A document with two reconcilable forms of different periods, one form
without an income record, and one matching absence record per period. -/
def exDoc : JsVal :=
  .obj [("Skatteverket", .obj
    [("Blankett", .arr [mkBlankett "202101" "198201019999" true,
                        mkBlankett "202101" "198201019999" false,
                        mkBlankett "202102" "198201019999" true]),
     ("Franvarouppgift", .arr [frRec "198201019999" "202101",
                               frRec "198201019999" "202102"])])]

/-- The cases `extractArendeInformation` derives from `exDoc`. -/
def exCases : List Arende :=
  [{ index := 0, arendeAgare := .str "165560269986", period := .str "202101",
     betalningsmottagarId := .str "198201019999",
     blankettInnehall := iuBlock "198201019999",
     franvaroList := [frRec "198201019999" "202101"] },
   { index := 1, arendeAgare := .str "165560269986", period := .str "202102",
     betalningsmottagarId := .str "198201019999",
     blankettInnehall := iuBlock "198201019999",
     franvaroList := [frRec "198201019999" "202102"] }]

/-- A document with two declaration forms sharing one composite key
(recipient id and period) and one document-level absence record with that
key. -/
def dupDoc : JsVal :=
  .obj [("Skatteverket", .obj
    [("Blankett", .arr [mkBlankett "202101" "198201019999" true,
                        mkBlankett "202101" "198201019999" true]),
     ("Franvarouppgift", frRec "198201019999" "202101")])]

/-- A concrete `Programnamn` element. -/
def prognamnEx : List (String × JsVal) := [("_text", .str "Gammalt program")]

/-- A concrete `Avsandare` block. -/
def avsandareEx : List (String × JsVal) :=
  [("Programnamn", .obj prognamnEx),
   ("Organisationsnummer", .obj [("_text", .str "165560269986")])]

/-- The `Skatteverket` fields of a concrete document with a sender. -/
def skFieldsEx : List (String × JsVal) :=
  [("Avsandare", .obj avsandareEx),
   ("Blankett", mkBlankett "202101" "198201019999" true)]

/-- The root fields of that document. -/
def rootFieldsEx : List (String × JsVal) := [("Skatteverket", .obj skFieldsEx)]

/-- The technical-contact email text of a document, read along the same
guarded path the validator uses. -/
def epostText (root : JsVal) : String :=
  jsToString (getTextContent
    (getField (fieldOr (fieldOr root "Avsandare") "TekniskKontaktperson") "Epostadress"))

/-- A document whose technical-contact email text, `"x a@b.cd"`, is not
itself of the shape `\w+@\w+\.\w+` (it has a leading `"x "` and keeps
trailing characters) but contains such a substring. -/
def epostDocStr : String :=
  "<Skatteverket><Avsandare><TekniskKontaktperson><Epostadress>x a@b.cd</Epostadress></TekniskKontaktperson></Avsandare></Skatteverket>"

/-- The tree `parseXML epostDocStr` yields. -/
def epostDocTree : JsVal :=
  .obj [("Skatteverket", .obj [("Avsandare", .obj [("TekniskKontaktperson",
    .obj [("Epostadress", .obj [("_text", .str "x a@b.cd")])])])])]

/-! ## Well-formed compact trees

The trees a successful `parseXML` can produce, characterized structurally:
every element is in the canonical `mkElem` form, tags and attribute names
are non-empty runs of name characters, the reserved keys do not occur as
child tags, stored text contains a non-whitespace character, child tags
are pairwise distinct, and a repeated tag holds an array of at least two
elements.  `parseXML x = some t` implies the root field of `t` satisfies
`WfElem`, and on `WfElem` trees `generateXML` inverts `parseXML`. -/

/-- A usable XML name: non-empty and made of name characters. -/
def validName (s : String) : Bool :=
  !s.data.isEmpty && s.data.all isNameChar

mutual

/-- Well-formedness of one parsed compact element value. -/
inductive WfElem : JsVal → Prop where
  | mk (attrs : List (String × String)) (text : String)
      (children : List (String × JsVal))
      (hattrs : ∀ a ∈ attrs, validName a.1 = true)
      (htext : text = "" ∨ text.data.all isXmlWs = false)
      (hkeys : (children.map Prod.fst).Nodup)
      (htags : ∀ p ∈ children,
        validName p.1 = true ∧ p.1 ≠ "_text" ∧ p.1 ≠ "_attributes")
      (hvals : ∀ p ∈ children, WfChildVal p.2) :
      WfElem (mkElem attrs text children)

/-- Well-formedness of the value stored under one child tag: a single
element, or an array of at least two elements. -/
inductive WfChildVal : JsVal → Prop where
  | one (fs : List (String × JsVal)) (h : WfElem (.obj fs)) :
      WfChildVal (.obj fs)
  | many (es : List JsVal) (hlen : 2 ≤ es.length)
      (h : ∀ e ∈ es, WfElem e) : WfChildVal (.arr es)

end

/-- The sequence of child elements (tag and element value) the generator
emits for a field list, in order: reserved keys contribute nothing, an
array spreads into one element per entry. -/
def genItems (fs : List (String × JsVal)) : List (String × JsVal) :=
  fs.flatMap (fun p =>
    if p.1 = "_attributes" || p.1 = "_text" then []
    else
      match p.2 with
      | .arr xs => xs.map (fun x => (p.1, x))
      | w => [(p.1, w)])

/-- The invariant of the text accumulator of a content job: empty, or
holding at least one non-whitespace character. -/
def textInv (t : String) : Prop := t = "" ∨ t.data.all isXmlWs = false

/-- The invariant of the child accumulator of a content job. -/
def childInv (ch : List (String × JsVal)) : Prop :=
  (ch.map Prod.fst).Nodup
    ∧ ∀ p ∈ ch, validName p.1 = true ∧ p.1 ≠ "_text" ∧ p.1 ≠ "_attributes"
        ∧ WfChildVal p.2

/-- A small document exercising the round trip: attributes, a repeated
child tag, and text content. -/
def rtDocStr : String := "<a b=\"1\"><c>hi</c><c>2</c></a>"

/-- The compact tree `parseXML` produces for `rtDocStr`. -/
def rtDocTree : JsVal :=
  .obj [("a", .obj [("_attributes", .obj [("b", .str "1")]),
    ("c", .arr [.obj [("_text", .str "hi")], .obj [("_text", .str "2")]])])]

/-! # Theorems -/

/-! ## Lookup lemmas for the JS-value model -/

theorem extractSegs_append (qs rest : List String) (x : JsVal) :
    extractSegs (qs ++ rest) x =
      match extractSegs qs x with
      | some c => extractSegs rest c
      | none => none := by
  induction qs generalizing x with
  | nil => simp [extractSegs]
  | cons p qs ih =>
      simp only [List.cons_append, extractSegs]
      cases h : getField x p with
      | none => simp
      | some v =>
          by_cases hv : truthy v
          · simp [hv, ih]
          · simp [hv]

/-! ## C1 — `handleRemoveFranvaro` and out-of-range indices -/

/-- C1 (counterexample): the claim says `removeAbsence` with an index equal
to the list length fails with an `IndexOutOfRange` condition rather than
returning an updated list.  The code is a bare `splice(franvaroIndex, 1)`,
which never throws: at index 1 on a one-element list it removes nothing
and the handler hands the unchanged list to `onFranvaroUpdate`. -/
theorem handleRemoveFranvaro_at_length_cex :
    handleRemoveFranvaro (arendeEx [recSpec "1"]) 1 = [recSpec "1"] := by rfl

/-- C1 (amended): `removeAbsence` never fails: for a non-negative index
within the list it removes exactly the record at that position (the length
decreases by one, the remaining records keep their order and are not
renumbered — they are untouched); for an index at or beyond the list
length it returns the list unchanged, reporting nothing. -/
theorem handleRemoveFranvaro_spec (arende : Arende) (i : Int) (h0 : 0 ≤ i) :
    (i < (arende.franvaroList.length : Int) →
      handleRemoveFranvaro arende i =
        arende.franvaroList.take i.toNat ++ arende.franvaroList.drop (i.toNat + 1)
      ∧ (handleRemoveFranvaro arende i).length + 1 = arende.franvaroList.length)
    ∧ ((arende.franvaroList.length : Int) ≤ i →
        handleRemoveFranvaro arende i = arende.franvaroList) := by
  unfold handleRemoveFranvaro spliceRemoveOne spliceRemoveAt
  have hnot : ¬ i < 0 := by omega
  constructor
  · intro hlt
    have hle : i.toNat ≤ arende.franvaroList.length := by omega
    have hmin : min i.toNat arende.franvaroList.length = i.toNat := by omega
    refine ⟨by simp [hnot, hmin], ?_⟩
    simp only [hnot, if_false, hmin, List.length_append, List.length_take,
      List.length_drop]
    omega
  · intro hge
    have hmin : min i.toNat arende.franvaroList.length = arende.franvaroList.length := by
      omega
    simp only [hnot, if_false, hmin]
    rw [List.take_length, List.drop_eq_nil_of_le (by omega), List.append_nil]

/-- C1 (witness): removing index 0 from a two-element list keeps exactly
the second record. -/
theorem handleRemoveFranvaro_spec_witness :
    (0 : Int) ≤ 0
    ∧ (((0 : Int) < ((arendeEx [recSpec "1", recSpec "2"]).franvaroList.length : Int) →
        handleRemoveFranvaro (arendeEx [recSpec "1", recSpec "2"]) 0 =
          (arendeEx [recSpec "1", recSpec "2"]).franvaroList.take (0 : Int).toNat
            ++ (arendeEx [recSpec "1", recSpec "2"]).franvaroList.drop ((0 : Int).toNat + 1)
        ∧ (handleRemoveFranvaro (arendeEx [recSpec "1", recSpec "2"]) 0).length + 1 =
            (arendeEx [recSpec "1", recSpec "2"]).franvaroList.length)
      ∧ (((arendeEx [recSpec "1", recSpec "2"]).franvaroList.length : Int) ≤ 0 →
          handleRemoveFranvaro (arendeEx [recSpec "1", recSpec "2"]) 0 =
            (arendeEx [recSpec "1", recSpec "2"]).franvaroList)) :=
  ⟨le_refl 0, handleRemoveFranvaro_spec (arendeEx [recSpec "1", recSpec "2"]) 0 (le_refl 0)⟩

/-! ## C4 — the next specification number of `handleAddFranvaro` -/

/-- A parsed specification number (used to state that a record's number
reads as the natural `k`). -/
def natSome (k : Nat) : Option Int := some (Int.ofNat k)

theorem seqOpt_of_map_natSome (ks : List Nat) :
    seqOpt (ks.map natSome) = some (ks.map Int.ofNat) := by
  induction ks with
  | nil => rfl
  | cons k ks ih => simp [natSome, seqOpt, ih]

theorem foldl_max_cast (ks : List Nat) (k : Nat) :
    (ks.map Int.ofNat).foldl max (Int.ofNat k) = Int.ofNat (ks.foldl max k) := by
  induction ks generalizing k with
  | nil => rfl
  | cons a ks ih =>
      simp only [List.map_cons, List.foldl_cons]
      have hmax : max (Int.ofNat k) (Int.ofNat a) = Int.ofNat (max k a) := by
        rcases Nat.le_total k a with hh | hh
        · rw [Nat.max_eq_right hh]; exact max_eq_right (Int.ofNat_le.mpr hh)
        · rw [Nat.max_eq_left hh]; exact max_eq_left (Int.ofNat_le.mpr hh)
      rw [hmax, ih]

theorem foldl_max_eq_foldr (k : Nat) (ks : List Nat) :
    ks.foldl max k = max k (ks.foldr max 0) := by
  induction ks generalizing k with
  | nil => simp only [List.foldl_nil, List.foldr_nil]; omega
  | cons a ks ih =>
      simp only [List.foldl_cons, List.foldr_cons]
      rw [ih (max k a)]
      omega

theorem maxSpecNr_of_nats (fs : List JsVal) (ks : List Nat)
    (h : fs.map specNrOf = ks.map natSome) :
    maxSpecNr fs = some (Int.ofNat (ks.foldr max 0)) := by
  cases fs with
  | nil =>
      cases ks with
      | nil => rfl
      | cons k ks => simp at h
  | cons f fs' =>
      cases ks with
      | nil => simp at h
      | cons k ks' =>
          unfold maxSpecNr
          rw [h, seqOpt_of_map_natSome]
          simp only [List.isEmpty_cons, Bool.false_eq_true, if_false, List.map_cons]
          rw [foldl_max_cast, foldl_max_eq_foldr]
          simp only [List.foldr_cons]

/-- C4: `addAbsence` assigns the new record a specification number whose
text is the decimal of one plus the maximum specification number among the
case's current absence records (1 when there are none): under the
hypothesis that every existing record's specification-number text parses
to the corresponding natural number of `ks`, the built record's
`FranvaroSpecifikationsnummer._text` is `toString (ks.foldr max 0 + 1)` —
`"1"` for an empty case — and the new record is appended to the unchanged
existing list. -/
theorem handleAddFranvaro_specNr (arende : Arende) (input : FranvaroInput)
    (ks : List Nat)
    (h : arende.franvaroList.map specNrOf = ks.map natSome) :
    optChain (getField (newFranvaro arende input) "FranvaroSpecifikationsnummer") "_text"
      = some (.str (toString (ks.foldr max 0 + 1)))
    ∧ handleAddFranvaro arende input = arende.franvaroList ++ [newFranvaro arende input] := by
  refine ⟨?_, rfl⟩
  unfold newFranvaro
  rw [maxSpecNr_of_nats arende.franvaroList ks h]
  rfl

/-- C4 (witness): a case with specification numbers 1 and 2 gets a new
record numbered `"3"`. -/
theorem handleAddFranvaro_specNr_witness :
    (arendeEx [recSpec "1", recSpec "2"]).franvaroList.map specNrOf = [1, 2].map natSome
    ∧ (optChain (getField (newFranvaro (arendeEx [recSpec "1", recSpec "2"]) inputEx)
          "FranvaroSpecifikationsnummer") "_text"
        = some (.str (toString (([1, 2].foldr max 0 : Nat) + 1)))
      ∧ handleAddFranvaro (arendeEx [recSpec "1", recSpec "2"]) inputEx =
          (arendeEx [recSpec "1", recSpec "2"]).franvaroList
            ++ [newFranvaro (arendeEx [recSpec "1", recSpec "2"]) inputEx]) :=
  ⟨by simp [arendeEx, recSpec, specNrOf, jsOrString, jsToString, optChain, getField, truthy,
      parseIntJs, parseIntSigned, parseIntDigits, natSome, List.find?, isXmlWs],
   handleAddFranvaro_specNr (arendeEx [recSpec "1", recSpec "2"]) inputEx [1, 2]
     (by simp [arendeEx, recSpec, specNrOf, jsOrString, jsToString, optChain, getField, truthy,
        parseIntJs, parseIntSigned, parseIntDigits, natSome, List.find?, isXmlWs])⟩

/-! ## C9 — the defensive path accessor -/

/-- C9 (counterexample): the claim says the accessor returns the absent
sentinel whenever an intermediate segment resolves to a sequence, never
indexing into sequences.  JS bracket access does index arrays by canonical
numeric strings: on `{a: ["x","y"]}` the path `"a.0"` descends through the
sequence and yields `"x"`, not the absent sentinel. -/
theorem extractFromXML_indexes_into_sequence_cex :
    extractFromXML (some seqDoc) "a.0" = some (.str "x") := by rfl

/-- C9 (amended): `extract` is total (bracket access on a truthy value
never throws) and returns the absent sentinel as soon as a step fails: a
falsy root; a segment whose own member is present but empty, whatever
follows it (an own member shadows the prototype, so this clause is exact);
and a segment with no own member, provided the segment does not collide
with the standard prototype surface (`phantomKey`).  Bracket access does
reach inherited members such as `map` or `toString`, and does index into
sequences — and into strings — by canonical numeric segments, so no
sentinel is asserted there; in particular a sequence reached with a
non-numeric, non-inherited following segment yields the sentinel.  The
prototype lists fix the boundary at ECMA-262 2024, Annex B included. -/
theorem extractFromXML_defensive (path : String) :
    extractFromXML none path = none
    ∧ extractFromXML (some (.str "")) path = none
    ∧ (∀ x qs c p rest v, truthy x = true →
        splitDot path = qs ++ p :: rest →
        extractSegs qs x = some c →
        getField c p = some v → truthy v = false →
        extractFromXML (some x) path = none)
    ∧ (∀ x qs c p rest, truthy x = true →
        splitDot path = qs ++ p :: rest →
        extractSegs qs x = some c →
        getField c p = none → phantomKey c p = false →
        extractFromXML (some x) path = none)
    ∧ (∀ x qs p rest xs, truthy x = true →
        splitDot path = qs ++ p :: rest →
        extractSegs qs x = some (.arr xs) →
        (∃ c ∈ p.data, Char.isDigit c = false) →
        phantomKey (.arr xs) p = false →
        extractFromXML (some x) path = none) := by
  refine ⟨rfl, by simp [extractFromXML, truthy], ?_, ?_, ?_⟩
  · intro x qs c p rest v hx hsplit hqs hg hfv
    simp only [extractFromXML, hx, if_true, hsplit]
    rw [extractSegs_append, hqs]
    simp only [extractSegs]
    simp [hg, hfv]
  · intro x qs c p rest hx hsplit hqs hg hph
    simp only [extractFromXML, hx, if_true, hsplit]
    rw [extractSegs_append, hqs]
    simp only [extractSegs]
    simp [hg]
  · intro x qs p rest xs hx hsplit hqs hnum hph
    simp only [extractFromXML, hx, if_true, hsplit]
    rw [extractSegs_append, hqs]
    have hg : getField (.arr xs) p = none := by
      have hpc : parseCanonicalNat p.data = none := by
        obtain ⟨c, hc, hcd⟩ := hnum
        unfold parseCanonicalNat
        rw [if_neg]
        intro ⟨_, hall, _⟩
        have := List.all_eq_true.mp hall c hc
        simp [hcd] at this
      simp [getField, hpc]
    simp [extractSegs, hg]

/-- C9 (witness): on `{a: ["x","y"]}` the path `"a.b"` — a sequence reached
with a non-numeric segment that collides with no inherited name — yields
the absent sentinel, with every hypothesis of the sequence clause checked
at this concrete input. -/
theorem extractFromXML_defensive_witness :
    truthy seqDoc = true
    ∧ splitDot "a.b" = ["a"] ++ "b" :: []
    ∧ extractSegs ["a"] seqDoc = some (.arr [.str "x", .str "y"])
    ∧ (∃ c ∈ "b".data, Char.isDigit c = false)
    ∧ phantomKey (.arr [.str "x", .str "y"]) "b" = false
    ∧ extractFromXML (some seqDoc) "a.b" = none :=
  ⟨rfl, rfl, rfl, ⟨'b', by decide, by decide⟩, rfl,
   (extractFromXML_defensive "a.b").2.2.2.2 seqDoc ["a"] "b" []
     [.str "x", .str "y"] rfl rfl rfl ⟨'b', by decide, by decide⟩ rfl⟩

/-! ## C2, C5 — what `extractArendeInformation` extracts and matches -/

theorem traverseOpt_mem {α β : Type} (g : α → Option β) (l : List α) (out : List β)
    (h : traverseOpt g l = some out) :
    (∀ c ∈ out, ∃ x ∈ l, g x = some c) ∧ (∀ x ∈ l, ∃ c ∈ out, g x = some c) := by
  induction l generalizing out with
  | nil =>
      simp only [traverseOpt, Option.some.injEq] at h
      subst h
      exact ⟨by simp, by simp⟩
  | cons x rest ih =>
      simp only [traverseOpt] at h
      cases hg : g x with
      | none => rw [hg] at h; simp at h
      | some y =>
          rw [hg] at h
          cases ht : traverseOpt g rest with
          | none => rw [ht] at h; simp at h
          | some ys =>
              rw [ht] at h
              simp only [Option.map, Option.some.injEq] at h
              subst h
              obtain ⟨fwd, bwd⟩ := ih ys ht
              constructor
              · intro c hc
                rcases List.mem_cons.mp hc with rfl | hc'
                · exact ⟨x, List.mem_cons_self x rest, hg⟩
                · obtain ⟨z, hz, hgz⟩ := fwd c hc'
                  exact ⟨z, List.mem_cons_of_mem x hz, hgz⟩
              · intro z hz
                rcases List.mem_cons.mp hz with rfl | hz'
                · exact ⟨y, List.mem_cons_self y ys, hg⟩
                · obtain ⟨c, hc, hgc⟩ := bwd z hz'
                  exact ⟨c, List.mem_cons_of_mem y hc, hgc⟩

theorem mem_enum_of_mem {α : Type} {x : α} {l : List α} (hx : x ∈ l) :
    ∃ i, (i, x) ∈ l.enum := by
  obtain ⟨i, hi⟩ := List.mem_iff_get.mp hx
  subst hi
  exact ⟨(i : Nat), List.mem_iff_get.mpr
    ⟨⟨(i : Nat), by simp [i.isLt]⟩, by simp [List.getElem_enum]⟩⟩

theorem mem_of_mem_enum {α : Type} {x : α} {i : Nat} {l : List α}
    (hx : (i, x) ∈ l.enum) : x ∈ l := by
  have h := List.mem_enum hx
  rw [h.2]
  exact List.getElem_mem h.1

theorem existingFranvaroFor_eq_filter (parsedXml betalId period : JsVal) :
    existingFranvaroFor parsedXml betalId period =
      (franvaroSeq parsedXml).filter (franvaroMatches betalId period) := by
  unfold existingFranvaroFor franvaroSeq
  cases optChain (getField parsedXml "Skatteverket") "Franvarouppgift" with
  | none => rfl
  | some fv =>
      by_cases hfv : truthy fv
      · simp only [hfv, if_true]
        cases fv with
        | arr fs => rfl
        | str s =>
            cases hm : franvaroMatches betalId period (JsVal.str s) <;>
              simp [toArr, List.filter, hm]
        | obj fields =>
            cases hm : franvaroMatches betalId period (JsVal.obj fields) <;>
              simp [toArr, List.filter, hm]
      · simp [hfv]

theorem mkArende_inversion (doc : JsVal) (i : Nat) (b : JsVal) (c : Arende)
    (h : mkArende doc i b = some c) :
    getField b "Blankettinnehall" = some c.blankettInnehall
    ∧ c.franvaroList =
        (franvaroSeq doc).filter (franvaroMatches c.betalningsmottagarId c.period) := by
  unfold mkArende at h
  cases hA : getField b "Arendeinformation" with
  | none => simp only [hA] at h; exact Option.noConfusion h
  | some arendeInfo =>
      simp only [hA] at h
      cases hB : getField b "Blankettinnehall" with
      | none => simp only [hB] at h; exact Option.noConfusion h
      | some bi =>
          simp only [hB] at h
          cases hI : getField bi "IU" with
          | none => simp only [hI] at h; exact Option.noConfusion h
          | some iuData =>
              simp only [hI, Option.some.injEq] at h
              subst h
              exact ⟨rfl, existingFranvaroFor_eq_filter doc _ _⟩

theorem hasIU_congr (b b' : JsVal)
    (h : getField b "Blankettinnehall" = getField b' "Blankettinnehall") :
    hasIU b = hasIU b' := by
  unfold hasIU
  rw [h]

theorem jsStrictEq_right_unique (a b b' : JsVal)
    (h : jsStrictEq a b = true) (h' : jsStrictEq a b' = true) : b = b' := by
  cases a <;> cases b <;> simp [jsStrictEq] at h
  cases b' <;> simp [jsStrictEq] at h'
  rw [h] at h'
  rw [h']

/-- C5: a declaration form contributes a case to `extractArendeInformation`
exactly when its content block contains an `IU` (income-record)
sub-structure, and a document-level absence record belongs to a case's
list exactly when it appears among the normalized document-level records
and both its recipient id and its reporting period strictly equal the
case's (so a record with a matching id but a different period is
excluded). -/
theorem extractArendeInformation_spec (doc : JsVal) (cases : List Arende)
    (h : extractArendeInformation doc = some cases) :
    (∀ b ∈ blankettSeq doc,
       (hasIU b = true ↔ ∃ c ∈ cases, getField b "Blankettinnehall" = some c.blankettInnehall))
    ∧ (∀ c ∈ cases, ∀ f,
        f ∈ c.franvaroList ↔
          f ∈ franvaroSeq doc ∧ franvaroMatches c.betalningsmottagarId c.period f = true) := by
  obtain ⟨fwd, bwd⟩ := traverseOpt_mem _ _ cases h
  constructor
  · intro b hb
    constructor
    · intro hiu
      have hbf : b ∈ (blankettSeq doc).filter hasIU := List.mem_filter.mpr ⟨hb, hiu⟩
      obtain ⟨i, henum⟩ := mem_enum_of_mem hbf
      obtain ⟨c, hc, hgc⟩ := bwd (i, b) henum
      exact ⟨c, hc, (mkArende_inversion doc _ b c hgc).1⟩
    · rintro ⟨c, hc, hfield⟩
      obtain ⟨⟨i, b'⟩, hxb, hgb⟩ := fwd c hc
      have hb'f : b' ∈ (blankettSeq doc).filter hasIU := mem_of_mem_enum hxb
      have hiu' : hasIU b' = true := (List.mem_filter.mp hb'f).2
      have hfield' := (mkArende_inversion doc _ b' c hgb).1
      rw [hasIU_congr b b' (by rw [hfield, hfield'])]
      exact hiu'
  · intro c hc f
    obtain ⟨⟨i, b⟩, _, hgb⟩ := fwd c hc
    rw [(mkArende_inversion doc _ b c hgb).2]
    exact List.mem_filter

/-- C5 (witness): on `exDoc`, the characterization holds with the two
extracted cases (the middle form, lacking an income record, contributes
none). -/
theorem extractArendeInformation_spec_witness :
    extractArendeInformation exDoc = some exCases
    ∧ ((∀ b ∈ blankettSeq exDoc,
         (hasIU b = true ↔ ∃ c ∈ exCases, getField b "Blankettinnehall" = some c.blankettInnehall))
      ∧ (∀ c ∈ exCases, ∀ f,
          f ∈ c.franvaroList ↔
            f ∈ franvaroSeq exDoc
              ∧ franvaroMatches c.betalningsmottagarId c.period f = true)) :=
  ⟨rfl, extractArendeInformation_spec exDoc exCases rfl⟩

/-- C2 (counterexample): the claim says any two distinct cases produced by
`extractCases` have disjoint absence lists.  On `dupDoc` — two declaration
forms with the same recipient id and period — the two distinct cases
(indices 0 and 1) both hold the very same document-level absence
record. -/
theorem extractArendeInformation_shared_record_cex :
    (extractArendeInformation dupDoc).map (fun cs => cs.map (fun c => (c.index, c.franvaroList)))
      = some [(0, [frRec "198201019999" "202101"]),
              (1, [frRec "198201019999" "202101"])] := by rfl

/-- C2 (amended): two extracted cases whose composite keys (recipient id,
period) differ have disjoint absence-record lists; disjointness can fail
only for cases sharing both the recipient id and the period, as in
`dupDoc`. -/
theorem extractArendeInformation_disjoint_of_distinct_keys (doc : JsVal)
    (cases : List Arende) (h : extractArendeInformation doc = some cases) :
    ∀ c1 ∈ cases, ∀ c2 ∈ cases,
      (c1.betalningsmottagarId, c1.period) ≠ (c2.betalningsmottagarId, c2.period) →
      ∀ f, f ∈ c1.franvaroList → f ∉ c2.franvaroList := by
  intro c1 h1 c2 h2 hne f hf1 hf2
  obtain ⟨fwd, _⟩ := traverseOpt_mem _ _ cases h
  obtain ⟨⟨i1, b1⟩, _, hg1⟩ := fwd c1 h1
  obtain ⟨⟨i2, b2⟩, _, hg2⟩ := fwd c2 h2
  rw [(mkArende_inversion doc _ b1 c1 hg1).2] at hf1
  rw [(mkArende_inversion doc _ b2 c2 hg2).2] at hf2
  have m1 := (List.mem_filter.mp hf1).2
  have m2 := (List.mem_filter.mp hf2).2
  unfold franvaroMatches at m1 m2
  obtain ⟨mb1, mp1⟩ := Bool.and_eq_true_iff.mp m1
  obtain ⟨mb2, mp2⟩ := Bool.and_eq_true_iff.mp m2
  exact hne (Prod.ext
    (jsStrictEq_right_unique _ _ _ mb1 mb2)
    (jsStrictEq_right_unique _ _ _ mp1 mp2))

/-- C2 (witness): the amended disjointness applied to `exDoc`, whose two
cases have different periods. -/
theorem extractArendeInformation_disjoint_witness :
    extractArendeInformation exDoc = some exCases
    ∧ (∀ c1 ∈ exCases, ∀ c2 ∈ exCases,
        (c1.betalningsmottagarId, c1.period) ≠ (c2.betalningsmottagarId, c2.period) →
        ∀ f, f ∈ c1.franvaroList → f ∉ c2.franvaroList) :=
  ⟨rfl, extractArendeInformation_disjoint_of_distinct_keys exDoc exCases rfl⟩

/-! ## Lookup lemmas for object-literal writes -/

theorem find?_overwrite_self (fs : List (String × JsVal)) (k : String) (v : JsVal)
    (hs : (fs.find? (fun p => p.1 = k)).isSome = true) :
    (fs.map (fun p => if p.1 = k then (k, v) else p)).find? (fun p => p.1 = k)
      = some (k, v) := by
  induction fs with
  | nil => simp at hs
  | cons p fs ih =>
      by_cases hp : p.1 = k
      · simp [List.find?, hp]
      · simp only [List.map_cons, if_neg hp]
        rw [List.find?_cons_of_neg _ (by simp [hp]), ih ?_]
        rwa [List.find?_cons_of_neg _ (by simp [hp])] at hs

theorem find?_overwrite_ne (fs : List (String × JsVal)) (k k' : String) (v : JsVal)
    (h : k' ≠ k) :
    (fs.map (fun p => if p.1 = k then (k, v) else p)).find? (fun p => p.1 = k')
      = fs.find? (fun p => p.1 = k') := by
  induction fs with
  | nil => simp
  | cons p fs ih =>
      simp only [List.map_cons]
      by_cases hp' : p.1 = k'
      · have hpk : ¬ p.1 = k := by rw [hp']; exact h
        rw [if_neg hpk, List.find?_cons_of_pos _ (by simp [hp']),
          List.find?_cons_of_pos _ (by simp [hp'])]
      · by_cases hpk : p.1 = k
        · rw [if_pos hpk, List.find?_cons_of_neg _ (by simp [Ne.symm h]),
            List.find?_cons_of_neg _ (by simp [hp']), ih]
        · rw [if_neg hpk, List.find?_cons_of_neg _ (by simp [hp']),
            List.find?_cons_of_neg _ (by simp [hp']), ih]

theorem find?_append_self (fs : List (String × JsVal)) (k : String) (v : JsVal)
    (hs : fs.find? (fun p => p.1 = k) = none) :
    (fs ++ [(k, v)]).find? (fun p => p.1 = k) = some (k, v) := by
  induction fs with
  | nil => simp [List.find?]
  | cons p fs ih =>
      simp only [List.cons_append, List.find?_cons] at hs ⊢
      cases hdec : (decide (p.1 = k)) with
      | true =>
          simp only [hdec] at hs
          exact Option.noConfusion hs
      | false =>
          simp only [hdec] at hs ⊢
          exact ih hs

theorem find?_append_ne (fs : List (String × JsVal)) (k k' : String) (v : JsVal)
    (h : k' ≠ k) :
    (fs ++ [(k, v)]).find? (fun p => p.1 = k') = fs.find? (fun p => p.1 = k') := by
  induction fs with
  | nil => simp [List.find?, h.symm]
  | cons p fs ih =>
      by_cases hp' : p.1 = k'
      · rw [List.cons_append, List.find?_cons_of_pos _ (by simp [hp']),
          List.find?_cons_of_pos _ (by simp [hp'])]
      · rw [List.cons_append, List.find?_cons_of_neg _ (by simp [hp']),
          List.find?_cons_of_neg _ (by simp [hp']), ih]

theorem getField_setField_self (fs : List (String × JsVal)) (k : String) (v : JsVal) :
    getField (.obj (setField fs k v)) k = some v := by
  unfold setField
  by_cases hs : (fs.find? (fun p => p.1 = k)).isSome
  · simp [getField, hs, find?_overwrite_self fs k v hs]
  · have hnone : fs.find? (fun p => p.1 = k) = none := by
      cases hf : fs.find? (fun p => p.1 = k) with
      | none => rfl
      | some q => rw [hf] at hs; simp at hs
    simp [getField, hs, find?_append_self fs k v hnone]

theorem getField_setField_ne (fs : List (String × JsVal)) (k k' : String) (v : JsVal)
    (h : k' ≠ k) :
    getField (.obj (setField fs k v)) k' = getField (.obj fs) k' := by
  unfold setField
  by_cases hs : (fs.find? (fun p => p.1 = k)).isSome
  · simp [getField, hs, find?_overwrite_ne fs k k' v h]
  · simp [getField, hs, find?_append_ne fs k k' v h]

theorem getField_removeField_self (fs : List (String × JsVal)) (k : String) :
    getField (.obj (removeField fs k)) k = none := by
  simp only [getField, removeField]
  rw [List.find?_eq_none.mpr]
  · rfl
  · intro p hp
    have := List.mem_filter.mp hp
    simpa using this.2

theorem getField_removeField_ne (fs : List (String × JsVal)) (k k' : String)
    (h : k' ≠ k) :
    getField (.obj (removeField fs k)) k' = getField (.obj fs) k' := by
  simp only [getField, removeField]
  congr 1
  induction fs with
  | nil => rfl
  | cons p fs ih =>
      by_cases hpk : p.1 = k
      · have hp' : ¬ p.1 = k' := by rw [hpk]; exact Ne.symm h
        rw [List.filter_cons_of_neg (by simp [hpk]),
          List.find?_cons_of_neg _ (by simp [hp']), ih]
      · by_cases hp' : p.1 = k'
        · rw [List.filter_cons_of_pos (by simp [hpk]),
            List.find?_cons_of_pos _ (by simp [hp']),
            List.find?_cons_of_pos _ (by simp [hp'])]
        · rw [List.filter_cons_of_pos (by simp [hpk]),
            List.find?_cons_of_neg _ (by simp [hp']),
            List.find?_cons_of_neg _ (by simp [hp']), ih]

/-! ## C6 — the tree built by `generateModifiedXML` -/

/-- C6 (counterexample): the claim says `buildDocument` returns a new tree
for every original tree.  On a tree without `Skatteverket` (and hence
without `Avsandare`), `parsedXml.Skatteverket.Avsandare` is `undefined`
and the access `.Programnamn` throws a `TypeError` (`none` in the model)
instead of returning a tree. -/
theorem generateModifiedXMLTree_throws_cex :
    generateModifiedXMLTree (.obj []) [] = none := by rfl

/-- C6 (amended): for every original tree that reaches `Avsandare`
through object fields (as every parsed declaration does), the built tree
replaces the top-level `Franvarouppgift` with the concatenation of every
case's list (the key reads as absent when that concatenation is empty),
overrides `Avsandare.Programnamn._text` with the fixed literal
`"Bokio och v√§nner"`, and leaves every other field of the root, of
`Skatteverket`, of `Avsandare` and of `Programnamn` unchanged; the
original tree is a pure input, never mutated. -/
theorem generateModifiedXMLTree_spec (rfs sfs afs pfs : List (String × JsVal))
    (cases : List Arende)
    (hsk : getField (.obj rfs) "Skatteverket" = some (.obj sfs))
    (hav : getField (.obj sfs) "Avsandare" = some (.obj afs))
    (hpn : getField (.obj afs) "Programnamn" = some (.obj pfs)) :
    ∃ sk' av' pn' : List (String × JsVal),
      generateModifiedXMLTree (.obj rfs) cases =
        some (.obj (setField rfs "Skatteverket" (.obj sk')))
      ∧ (∀ k, k ≠ "Skatteverket" →
          getField (.obj (setField rfs "Skatteverket" (.obj sk'))) k = getField (.obj rfs) k)
      ∧ getField (.obj (setField rfs "Skatteverket" (.obj sk'))) "Skatteverket"
          = some (.obj sk')
      ∧ (∀ k, k ≠ "Franvarouppgift" → k ≠ "Avsandare" →
          getField (.obj sk') k = getField (.obj sfs) k)
      ∧ (cases.flatMap (fun a => a.franvaroList) = [] →
          getField (.obj sk') "Franvarouppgift" = none)
      ∧ (∀ f0 fl, cases.flatMap (fun a => a.franvaroList) = f0 :: fl →
          getField (.obj sk') "Franvarouppgift" = some (.arr (f0 :: fl)))
      ∧ getField (.obj sk') "Avsandare" = some (.obj av')
      ∧ (∀ k, k ≠ "Programnamn" → getField (.obj av') k = getField (.obj afs) k)
      ∧ getField (.obj av') "Programnamn" = some (.obj pn')
      ∧ getField (.obj pn') "_text" = some (.str "Bokio och v√§nner")
      ∧ (∀ k, k ≠ "_text" → getField (.obj pn') k = getField (.obj pfs) k) := by
  cases hfl : cases.flatMap (fun a => a.franvaroList) with
  | nil =>
      refine ⟨setField (removeField sfs "Franvarouppgift") "Avsandare"
          (.obj (setField afs "Programnamn"
            (.obj (setField pfs "_text" (.str "Bokio och v√§nner"))))),
        setField afs "Programnamn" (.obj (setField pfs "_text" (.str "Bokio och v√§nner"))),
        setField pfs "_text" (.str "Bokio och v√§nner"),
        ?_, ?_, ?_, ?_, ?_, ?_, ?_, ?_, ?_, ?_, ?_⟩
      · unfold generateModifiedXMLTree
        simp only [hsk, hav, hpn, hfl, spreadFields, List.length_nil,
          Nat.lt_irrefl, if_false]
      · intro k hk
        exact getField_setField_ne rfs "Skatteverket" k _ hk
      · exact getField_setField_self rfs "Skatteverket" _
      · intro k hkf hka
        rw [getField_setField_ne _ "Avsandare" k _ hka,
          getField_removeField_ne sfs "Franvarouppgift" k hkf]
      · intro _
        rw [getField_setField_ne _ "Avsandare" _ _ (by decide),
          getField_removeField_self sfs "Franvarouppgift"]
      · intro f0 fl hcontra
        exact List.noConfusion hcontra
      · exact getField_setField_self _ "Avsandare" _
      · intro k hk
        exact getField_setField_ne afs "Programnamn" k _ hk
      · exact getField_setField_self afs "Programnamn" _
      · exact getField_setField_self pfs "_text" _
      · intro k hk
        exact getField_setField_ne pfs "_text" k _ hk
  | cons f0 fl =>
      refine ⟨setField (setField sfs "Franvarouppgift" (.arr (f0 :: fl))) "Avsandare"
          (.obj (setField afs "Programnamn"
            (.obj (setField pfs "_text" (.str "Bokio och v√§nner"))))),
        setField afs "Programnamn" (.obj (setField pfs "_text" (.str "Bokio och v√§nner"))),
        setField pfs "_text" (.str "Bokio och v√§nner"),
        ?_, ?_, ?_, ?_, ?_, ?_, ?_, ?_, ?_, ?_, ?_⟩
      · unfold generateModifiedXMLTree
        simp only [hsk, hav, hpn, hfl, spreadFields, List.length_cons,
          Nat.zero_lt_succ, if_true]
      · intro k hk
        exact getField_setField_ne rfs "Skatteverket" k _ hk
      · exact getField_setField_self rfs "Skatteverket" _
      · intro k hkf hka
        rw [getField_setField_ne _ "Avsandare" k _ hka,
          getField_setField_ne sfs "Franvarouppgift" k _ hkf]
      · intro hcontra
        exact List.noConfusion hcontra
      · intro g0 gl hg
        rw [← hg]
        rw [getField_setField_ne _ "Avsandare" _ _ (by decide),
          getField_setField_self sfs "Franvarouppgift" _]
      · exact getField_setField_self _ "Avsandare" _
      · intro k hk
        exact getField_setField_ne afs "Programnamn" k _ hk
      · exact getField_setField_self afs "Programnamn" _
      · exact getField_setField_self pfs "_text" _
      · intro k hk
        exact getField_setField_ne pfs "_text" k _ hk

/-- C6 (witness): the frame specification applied to a concrete document
and the two extracted cases of `exDoc`. -/
theorem generateModifiedXMLTree_spec_witness :
    getField (.obj rootFieldsEx) "Skatteverket" = some (.obj skFieldsEx)
    ∧ getField (.obj skFieldsEx) "Avsandare" = some (.obj avsandareEx)
    ∧ getField (.obj avsandareEx) "Programnamn" = some (.obj prognamnEx)
    ∧ (∃ sk' av' pn' : List (String × JsVal),
        generateModifiedXMLTree (.obj rootFieldsEx) exCases =
          some (.obj (setField rootFieldsEx "Skatteverket" (.obj sk')))
        ∧ (∀ k, k ≠ "Skatteverket" →
            getField (.obj (setField rootFieldsEx "Skatteverket" (.obj sk'))) k
              = getField (.obj rootFieldsEx) k)
        ∧ getField (.obj (setField rootFieldsEx "Skatteverket" (.obj sk'))) "Skatteverket"
            = some (.obj sk')
        ∧ (∀ k, k ≠ "Franvarouppgift" → k ≠ "Avsandare" →
            getField (.obj sk') k = getField (.obj skFieldsEx) k)
        ∧ (exCases.flatMap (fun a => a.franvaroList) = [] →
            getField (.obj sk') "Franvarouppgift" = none)
        ∧ (∀ f0 fl, exCases.flatMap (fun a => a.franvaroList) = f0 :: fl →
            getField (.obj sk') "Franvarouppgift" = some (.arr (f0 :: fl)))
        ∧ getField (.obj sk') "Avsandare" = some (.obj av')
        ∧ (∀ k, k ≠ "Programnamn" → getField (.obj av') k = getField (.obj avsandareEx) k)
        ∧ getField (.obj av') "Programnamn" = some (.obj pn')
        ∧ getField (.obj pn') "_text" = some (.str "Bokio och v√§nner")
        ∧ (∀ k, k ≠ "_text" → getField (.obj pn') k = getField (.obj prognamnEx) k)) :=
  ⟨rfl, rfl, rfl,
   generateModifiedXMLTree_spec rootFieldsEx skFieldsEx avsandareEx prognamnEx exCases
     rfl rfl rfl⟩

/-! ## C8 — single occurrences are normalized, never skipped -/

theorem nsErrors_congr (a b : JsVal)
    (h : getField a "_attributes" = getField b "_attributes") :
    nsErrors a = nsErrors b := by
  unfold nsErrors
  rw [h]

theorem avsandareErrors_congr (a b : JsVal)
    (h : getField a "Avsandare" = getField b "Avsandare") :
    avsandareErrors a = avsandareErrors b := by
  unfold avsandareErrors fieldOr
  rw [h]

theorem blankettErrors_congr (a b : JsVal)
    (h : getField a "Blankett" = getField b "Blankett") :
    blankettErrors a = blankettErrors b := by
  unfold blankettErrors fieldOr
  rw [h]

theorem franvaroErrors_congr (a b : JsVal)
    (h : getField a "Franvarouppgift" = getField b "Franvarouppgift") :
    franvaroErrors a = franvaroErrors b := by
  unfold franvaroErrors fieldOr
  rw [h]

theorem validateParsed_mk (sk : JsVal) (h : truthy sk = true) :
    validateParsed (.obj [("Skatteverket", sk)]) =
      ((nsErrors sk ++ avsandareErrors sk ++ blankettErrors sk
          ++ franvaroErrors sk).isEmpty,
       nsErrors sk ++ avsandareErrors sk ++ blankettErrors sk ++ franvaroErrors sk) := by
  unfold validateParsed fieldOr
  have hg : getField (.obj [("Skatteverket", sk)]) "Skatteverket" = some sk := by
    simp [getField, List.find?]
  rw [hg]
  simp [truthyOpt, h]

/-- C8: a multiplicity-bearing element stored as a single node is
validated exactly as the one-element sequence: replacing a single
`Blankett` (respectively a single `Franvarouppgift`) object by the
one-element array holding it leaves the whole validator result unchanged
— the single occurrence is normalized to a sequence before iteration and
its per-item rules are never skipped. -/
theorem validateParsed_single_eq_singleton (sfs bfs ffs : List (String × JsVal)) :
    validateParsed (.obj [("Skatteverket", .obj (setField sfs "Blankett" (.obj bfs)))])
      = validateParsed
          (.obj [("Skatteverket", .obj (setField sfs "Blankett" (.arr [.obj bfs])))])
    ∧ validateParsed
        (.obj [("Skatteverket", .obj (setField sfs "Franvarouppgift" (.obj ffs)))])
      = validateParsed
          (.obj [("Skatteverket",
                  .obj (setField sfs "Franvarouppgift" (.arr [.obj ffs])))]) := by
  constructor
  · rw [validateParsed_mk (.obj (setField sfs "Blankett" (.obj bfs))) rfl,
      validateParsed_mk (.obj (setField sfs "Blankett" (.arr [.obj bfs]))) rfl]
    have e1 := nsErrors_congr (.obj (setField sfs "Blankett" (.obj bfs)))
      (.obj (setField sfs "Blankett" (.arr [.obj bfs])))
      (by rw [getField_setField_ne _ _ _ _ (by decide),
              getField_setField_ne _ _ _ _ (by decide)])
    have e2 := avsandareErrors_congr (.obj (setField sfs "Blankett" (.obj bfs)))
      (.obj (setField sfs "Blankett" (.arr [.obj bfs])))
      (by rw [getField_setField_ne _ _ _ _ (by decide),
              getField_setField_ne _ _ _ _ (by decide)])
    have e4 := franvaroErrors_congr (.obj (setField sfs "Blankett" (.obj bfs)))
      (.obj (setField sfs "Blankett" (.arr [.obj bfs])))
      (by rw [getField_setField_ne _ _ _ _ (by decide),
              getField_setField_ne _ _ _ _ (by decide)])
    have e3 : blankettErrors (.obj (setField sfs "Blankett" (.obj bfs)))
        = blankettErrors (.obj (setField sfs "Blankett" (.arr [.obj bfs]))) := by
      unfold blankettErrors fieldOr
      rw [getField_setField_self, getField_setField_self]
      simp [truthyOpt, truthy, toArr]
    rw [e1, e2, e3, e4]
  · rw [validateParsed_mk (.obj (setField sfs "Franvarouppgift" (.obj ffs))) rfl,
      validateParsed_mk (.obj (setField sfs "Franvarouppgift" (.arr [.obj ffs]))) rfl]
    have e1 := nsErrors_congr (.obj (setField sfs "Franvarouppgift" (.obj ffs)))
      (.obj (setField sfs "Franvarouppgift" (.arr [.obj ffs])))
      (by rw [getField_setField_ne _ _ _ _ (by decide),
              getField_setField_ne _ _ _ _ (by decide)])
    have e2 := avsandareErrors_congr (.obj (setField sfs "Franvarouppgift" (.obj ffs)))
      (.obj (setField sfs "Franvarouppgift" (.arr [.obj ffs])))
      (by rw [getField_setField_ne _ _ _ _ (by decide),
              getField_setField_ne _ _ _ _ (by decide)])
    have e3 := blankettErrors_congr (.obj (setField sfs "Franvarouppgift" (.obj ffs)))
      (.obj (setField sfs "Franvarouppgift" (.arr [.obj ffs])))
      (by rw [getField_setField_ne _ _ _ _ (by decide),
              getField_setField_ne _ _ _ _ (by decide)])
    have e4 : franvaroErrors (.obj (setField sfs "Franvarouppgift" (.obj ffs)))
        = franvaroErrors (.obj (setField sfs "Franvarouppgift" (.arr [.obj ffs]))) := by
      unfold franvaroErrors fieldOr
      rw [getField_setField_self, getField_setField_self]
      simp [truthyOpt, truthy, toArr]
    rw [e1, e2, e3, e4]

/-! ## C10 — the unanchored email check -/

theorem emailNeedsDot_complete (w2 : List Char) (h2 : ∀ c ∈ w2, isWordChar c = true)
    (d : Char) (hd : isWordChar d = true) (tail : List Char) :
    emailNeedsDot (w2 ++ '.' :: d :: tail) = true := by
  induction w2 with
  | nil => simp [emailNeedsDot, hd]
  | cons c w2 ih =>
      have hc := h2 c (List.mem_cons_self c w2)
      have ih' := ih (fun x hx => h2 x (List.mem_cons_of_mem c hx))
      simp only [List.cons_append, emailNeedsDot, List.append_eq, hc, ih',
        Bool.true_and, Bool.or_true]

theorem emailNeedsDomain_complete (c2 : Char) (hc2 : isWordChar c2 = true)
    (w2 : List Char) (h2 : ∀ c ∈ w2, isWordChar c = true)
    (d : Char) (hd : isWordChar d = true) (tail : List Char) :
    emailNeedsDomain (c2 :: (w2 ++ '.' :: d :: tail)) = true := by
  simp only [emailNeedsDomain, List.append_eq, hc2, Bool.true_and]
  exact emailNeedsDot_complete w2 h2 d hd tail

theorem emailAfterFirst_complete (w1 : List Char) (h1 : ∀ c ∈ w1, isWordChar c = true)
    (rest : List Char) (hrest : emailNeedsDomain rest = true) :
    emailAfterFirst (w1 ++ '@' :: rest) = true := by
  induction w1 with
  | nil => simp [emailAfterFirst, hrest]
  | cons c w1 ih =>
      have hc := h1 c (List.mem_cons_self c w1)
      have ih' := ih (fun x hx => h1 x (List.mem_cons_of_mem c hx))
      simp only [List.cons_append, emailAfterFirst, List.append_eq, hc, ih',
        Bool.true_and, Bool.or_true]

theorem emailMatchAt_complete (c1 : Char) (hc1 : isWordChar c1 = true)
    (w1 : List Char) (h1 : ∀ c ∈ w1, isWordChar c = true)
    (rest : List Char) (hrest : emailNeedsDomain rest = true) :
    emailMatchAt (c1 :: (w1 ++ '@' :: rest)) = true := by
  simp only [emailMatchAt, hc1, Bool.true_and]
  exact emailAfterFirst_complete w1 h1 rest hrest

theorem emailSearch_of_matchAt (pre s : List Char) (h : emailMatchAt s = true) :
    emailSearch (pre ++ s) = true := by
  induction pre with
  | nil =>
      cases s with
      | nil => simp [emailMatchAt] at h
      | cons c cs => simp only [List.nil_append, emailSearch, h, Bool.true_or]
  | cons p pre ih =>
      simp only [List.cons_append, emailSearch, List.append_eq, ih, Bool.or_true]

theorem emailTest_complete (s : String)
    (pre w1 w2 post : List Char) (c1 c2 d : Char)
    (hs : s.data = pre ++ c1 :: (w1 ++ '@' :: c2 :: (w2 ++ '.' :: d :: post)))
    (hc1 : isWordChar c1 = true) (h1 : ∀ c ∈ w1, isWordChar c = true)
    (hc2 : isWordChar c2 = true) (h2 : ∀ c ∈ w2, isWordChar c = true)
    (hd : isWordChar d = true) :
    emailTest s = true := by
  unfold emailTest
  rw [hs]
  exact emailSearch_of_matchAt pre _
    (emailMatchAt_complete c1 hc1 w1 h1 _
      (emailNeedsDomain_complete c2 hc2 w2 h2 d hd post))

theorem toDigitsCore_length_lt (b : Nat) :
    ∀ fuel n (ds : List Char), 0 < fuel →
      ds.length < (Nat.toDigitsCore b fuel n ds).length := by
  intro fuel
  induction fuel with
  | zero => intro n ds h; exact absurd h (Nat.lt_irrefl 0)
  | succ fuel ih =>
      intro n ds _
      simp only [Nat.toDigitsCore]
      split
      · exact Nat.lt_succ_self _
      · cases fuel with
        | zero =>
            simp only [Nat.toDigitsCore]
            exact Nat.lt_succ_self _
        | succ f =>
            exact Nat.lt_trans (Nat.lt_succ_self _)
              (ih (n / b) (((n % b).digitChar) :: ds) (Nat.succ_pos f))

theorem repr_length_pos (n : Nat) : 0 < (Nat.repr n).length := by
  have h := toDigitsCore_length_lt 10 (n + 1) n [] (Nat.succ_pos n)
  simpa [Nat.repr, Nat.toDigits] using h

theorem idxMsg_ne_email (base : String) (i : Nat) (h : 30 ≤ base.length) :
    idxMsg base i ≠ "Epostadress has invalid format" := by
  intro he
  have hlen := congrArg String.length he
  rw [idxMsg, String.length_append,
    show ("Epostadress has invalid format" : String).length = 30 from by decide] at hlen
  have hp : 0 < (toString (i + 1)).length := repr_length_pos (i + 1)
  omega

theorem not_mem_ite {α : Type} {m : α} {c : Prop} [Decidable c] {l1 l2 : List α}
    (h1 : m ∉ l1) (h2 : m ∉ l2) : m ∉ (if c then l1 else l2) := by
  split
  · exact h1
  · exact h2

theorem not_mem_append_of {α : Type} {m : α} {l1 l2 : List α}
    (h1 : m ∉ l1) (h2 : m ∉ l2) : m ∉ l1 ++ l2 := by
  intro hm
  rcases List.mem_append.mp hm with hm | hm
  · exact h1 hm
  · exact h2 hm

theorem not_mem_idx_ite {c : Prop} [Decidable c] (base : String) (i : Nat)
    (h : 30 ≤ base.length) (l : List String)
    (hl : "Epostadress has invalid format" ∉ l) :
    "Epostadress has invalid format" ∉ (if c then [idxMsg base i] else l) := by
  split
  · intro hm
    exact idxMsg_ne_email base i h (List.mem_singleton.mp hm).symm
  · exact hl

theorem email_notMem_blankettItem (i : Nat) (b : JsVal) :
    "Epostadress has invalid format" ∉ blankettItemErrors i b := by
  unfold blankettItemErrors blankettInfoErrors
  exact not_mem_append_of
    (not_mem_idx_ite _ i (by decide) _
      (not_mem_append_of
        (not_mem_idx_ite _ i (by decide) _ (not_mem_idx_ite _ i (by decide) [] (by decide)))
        (not_mem_idx_ite _ i (by decide) [] (by decide))))
    (not_mem_idx_ite _ i (by decide) [] (by decide))

theorem email_notMem_franvaroItem (i : Nat) (f : JsVal) :
    "Epostadress has invalid format" ∉ franvaroItemErrors i f := by
  unfold franvaroItemErrors
  exact not_mem_append_of
    (not_mem_append_of
      (not_mem_append_of
        (not_mem_append_of
          (not_mem_append_of
            (not_mem_append_of
              (not_mem_append_of (not_mem_idx_ite _ i (by decide) [] (by decide))
                (not_mem_idx_ite _ i (by decide) _
                  (not_mem_idx_ite _ i (by decide) [] (by decide))))
              (not_mem_idx_ite _ i (by decide) [] (by decide)))
            (not_mem_idx_ite _ i (by decide) [] (by decide)))
          (not_mem_idx_ite _ i (by decide) _
            (not_mem_idx_ite _ i (by decide) [] (by decide))))
        (not_mem_idx_ite _ i (by decide) [] (by decide)))
      (not_mem_ite (not_mem_idx_ite _ i (by decide) [] (by decide)) (by decide)))
    (not_mem_ite (not_mem_idx_ite _ i (by decide) [] (by decide)) (by decide))

theorem email_notMem_kontakt (kp : JsVal)
    (he : emailTest (jsToString (getTextContent (getField kp "Epostadress"))) = true) :
    "Epostadress has invalid format" ∉ kontaktErrors kp := by
  unfold kontaktErrors
  refine not_mem_append_of
    (not_mem_append_of (not_mem_ite (by decide) (by decide))
      (not_mem_ite (by decide) (by decide)))
    (not_mem_ite (by decide) ?_)
  rw [he]
  simp

theorem email_notMem_avsandareContent (av : JsVal)
    (he : emailTest (jsToString (getTextContent
      (getField (fieldOr av "TekniskKontaktperson") "Epostadress"))) = true) :
    "Epostadress has invalid format" ∉ avsandareContentErrors av := by
  unfold avsandareContentErrors
  exact not_mem_append_of
    (not_mem_append_of
      (not_mem_append_of (not_mem_ite (by decide) (by decide))
        (not_mem_ite (by decide) (not_mem_ite (by decide) (by decide))))
      (not_mem_ite (by decide) (email_notMem_kontakt _ he)))
    (not_mem_ite (by decide) (by decide))

theorem email_notMem_avsandare (root : JsVal)
    (he : emailTest (epostText root) = true) :
    "Epostadress has invalid format" ∉ avsandareErrors root := by
  rw [epostText] at he
  unfold avsandareErrors
  exact not_mem_ite (by decide) (email_notMem_avsandareContent _ he)

theorem email_notMem_blankettSection (root : JsVal) :
    "Epostadress has invalid format" ∉ blankettErrors root := by
  unfold blankettErrors
  refine not_mem_ite (by decide) ?_
  intro hm
  rcases List.mem_flatMap.mp hm with ⟨p, _, hp2⟩
  exact email_notMem_blankettItem p.1 p.2 hp2

theorem email_notMem_franvaroSection (root : JsVal) :
    "Epostadress has invalid format" ∉ franvaroErrors root := by
  unfold franvaroErrors
  refine not_mem_ite (by decide) ?_
  intro hm
  rcases List.mem_flatMap.mp hm with ⟨p, _, hp2⟩
  exact email_notMem_franvaroItem p.1 p.2 hp2

theorem email_notMem_ns (root : JsVal) :
    "Epostadress has invalid format" ∉ nsErrors root := by
  unfold nsErrors
  exact not_mem_ite (by decide) (by decide)

theorem email_notMem_validateParsed (t : JsVal)
    (he : emailTest (epostText (fieldOr t "Skatteverket")) = true) :
    "Epostadress has invalid format" ∉ (validateParsed t).2 := by
  unfold validateParsed
  split
  · simp
  · exact not_mem_append_of
      (not_mem_append_of
        (not_mem_append_of (email_notMem_ns _) (email_notMem_avsandare _ he))
        (email_notMem_blankettSection _))
      (email_notMem_franvaroSection _)

/-- C10: the validator's email format check is an unanchored substring match.
Whenever the technical-contact email text (read along the same guarded path
the validator uses) contains anywhere within it a substring of the shape
`\w+@\w+\.\w+` — with arbitrary leading characters `pre` and trailing
characters `post` around it — `validateXML` emits no
`Epostadress has invalid format` error. -/
theorem validateXML_email_unanchored (s : String) (t : JsVal)
    (hp : parseXML s = some t)
    (pre w1 w2 post : List Char) (c1 c2 d : Char)
    (hs : (epostText (fieldOr t "Skatteverket")).data
        = pre ++ c1 :: (w1 ++ '@' :: c2 :: (w2 ++ '.' :: d :: post)))
    (hc1 : isWordChar c1 = true) (h1 : ∀ c ∈ w1, isWordChar c = true)
    (hc2 : isWordChar c2 = true) (h2 : ∀ c ∈ w2, isWordChar c = true)
    (hd : isWordChar d = true) :
    "Epostadress has invalid format" ∉ (validateXML s).2 := by
  have he : emailTest (epostText (fieldOr t "Skatteverket")) = true :=
    emailTest_complete _ pre w1 w2 post c1 c2 d hs hc1 h1 hc2 h2 hd
  have hne : s ≠ "" := by
    intro h0
    rw [h0] at hp
    rw [show parseXML "" = none from rfl] at hp
    exact Option.noConfusion hp
  unfold validateXML
  rw [if_neg hne, hp]
  exact email_notMem_validateParsed t he

set_option maxRecDepth 4000 in
/-- C10 witness: `epostDocStr` parses, its technical-contact email text
splits as `"x " ++ "a@b.c" ++ "d"`, and the validator emits no email-format
error on it. -/
theorem validateXML_email_unanchored_witness :
    "Epostadress has invalid format" ∉ (validateXML epostDocStr).2 :=
  validateXML_email_unanchored epostDocStr epostDocTree (by rfl)
    ['x', ' '] [] [] ['d'] 'a' 'b' 'c'
    (by simp [epostText, epostDocTree, fieldOr, getField, getTextContent,
      truthy, jsToString, List.find?])
    (by decide) (by simp) (by decide) (by simp) (by decide)

/-- C7: the validator never throws — it is a total function into
`Bool × List String` — and each of the three early-exit conditions (empty
input, parse failure, missing `Skatteverket` root) yields `valid = false`
with exactly one explanatory error. -/
theorem validateXML_never_throws (s : String) :
    (s = "" → validateXML s = (false, ["No XML content provided"]))
    ∧ (parseXML s = none → s ≠ "" →
        validateXML s = (false, ["Failed to validate XML: Failed to parse XML file"]))
    ∧ (∀ t, parseXML s = some t → truthyOpt (getField t "Skatteverket") = false →
        validateXML s = (false, ["XML does not contain a Skatteverket root element"])) := by
  refine ⟨?_, ?_, ?_⟩
  · intro h0
    rw [h0]
    rfl
  · intro hn hne
    unfold validateXML
    rw [if_neg hne, hn]
  · intro t hp hroot
    have hne : s ≠ "" := by
      intro h0
      rw [h0] at hp
      rw [show parseXML "" = none from rfl] at hp
      exact Option.noConfusion hp
    unfold validateXML
    rw [if_neg hne, hp]
    dsimp only
    unfold validateParsed
    rw [hroot]
    rfl

theorem validateXML_never_throws_witness :
    validateXML "" = (false, ["No XML content provided"])
      ∧ validateXML "<" = (false, ["Failed to validate XML: Failed to parse XML file"])
      ∧ validateXML "<a/>" = (false, ["XML does not contain a Skatteverket root element"]) :=
  ⟨(validateXML_never_throws "").1 rfl,
   (validateXML_never_throws "<").2.1 rfl (by decide),
   (validateXML_never_throws "<a/>").2.2 (.obj [("a", .obj [])]) rfl rfl⟩

/-! ## Round-trip: lexer lemmas -/

theorem nameChar_not_ws (c : Char) (h : isNameChar c = true) : isXmlWs c = false := by
  unfold isXmlWs
  by_cases h1 : c = ' '
  · subst h1; exact absurd h (by decide)
  by_cases h2 : c = '\t'
  · subst h2; exact absurd h (by decide)
  by_cases h3 : c = '\n'
  · subst h3; exact absurd h (by decide)
  by_cases h4 : c = '\r'
  · subst h4; exact absurd h (by decide)
  simp [h1, h2, h3, h4]

theorem nameChar_not_special (c : Char) (h : isNameChar c = true) :
    c ≠ '>' ∧ c ≠ '/' ∧ c ≠ '!' ∧ c ≠ '?' ∧ c ≠ '=' ∧ c ≠ '"' ∧ c ≠ '<' := by
  refine ⟨?_, ?_, ?_, ?_, ?_, ?_, ?_⟩ <;>
    (intro he; subst he; exact absurd h (by decide))

theorem takeWhile_app (p : Char → Bool) (l r : List Char) (hl : l.all p = true)
    (hr : ∀ c, r.head? = some c → p c = false) :
    (l ++ r).takeWhile p = l ∧ (l ++ r).dropWhile p = r := by
  induction l with
  | nil =>
      simp only [List.nil_append]
      cases r with
      | nil => simp [List.takeWhile, List.dropWhile]
      | cons c cs =>
          have := hr c rfl
          simp [List.takeWhile_cons, List.dropWhile_cons, this]
  | cons c l ih =>
      simp only [List.all_cons, Bool.and_eq_true] at hl
      obtain ⟨h1, h2⟩ := ih hl.2
      simp [List.cons_append, List.takeWhile_cons, List.dropWhile_cons, hl.1, h1, h2]

theorem lexName_gen (tag : String) (r : List Char) (h : validName tag = true)
    (hr : ∀ c, r.head? = some c → isNameChar c = false) :
    lexName (tag.data ++ r) = some (tag, r) := by
  unfold validName at h
  rw [Bool.and_eq_true] at h
  have hall : tag.data.all isNameChar = true := h.2
  have hne : tag.data ≠ [] := by simpa using h.1
  obtain ⟨ht, hd⟩ := takeWhile_app isNameChar tag.data r hall hr
  unfold lexName
  rw [ht, hd]
  cases hl : tag.data with
  | nil => exact absurd hl hne
  | cons c cs =>
      exact congrArg (fun l => some (String.mk l, r)) hl.symm

theorem skipWs_not_ws (c : Char) (r : List Char) (h : isXmlWs c = false) :
    skipWs (c :: r) = c :: r := by
  unfold skipWs
  rw [h]
  simp

theorem skipWs_ws (c : Char) (r : List Char) (h : isXmlWs c = true) :
    skipWs (c :: r) = skipWs r := by
  show (if isXmlWs c = true then skipWs r else c :: r) = skipWs r
  rw [if_pos h]

theorem readEntity_amp (r : List Char) :
    readEntity ('a' :: 'm' :: 'p' :: ';' :: r) = some ('&', r) := rfl

theorem readEntity_lt (r : List Char) :
    readEntity ('l' :: 't' :: ';' :: r) = some ('<', r) := rfl

theorem readEntity_gt (r : List Char) :
    readEntity ('g' :: 't' :: ';' :: r) = some ('>', r) := rfl

theorem readEntity_quot (r : List Char) :
    readEntity ('q' :: 'u' :: 'o' :: 't' :: ';' :: r) = some ('"', r) := rfl

theorem escTextChar_plain (c : Char) (h1 : c ≠ '&') (h2 : c ≠ '<') (h3 : c ≠ '>') :
    escTextChar c = [c] := by
  simp [escTextChar, h1, h2, h3]

theorem flatMap_escTextChar_cons (c : Char) (l : List Char) :
    (c :: l).flatMap escTextChar = escTextChar c ++ l.flatMap escTextChar := rfl

theorem flatMap_escAttrChar_cons (c : Char) (l : List Char) :
    (c :: l).flatMap escAttrChar = escAttrChar c ++ l.flatMap escAttrChar := rfl

theorem lexText_escape (l : List Char) :
    ∀ (r : List Char) (fuel : Nat),
      (l.flatMap escTextChar).length + 1 ≤ fuel →
      (∀ c, r.head? = some c → c = '<') →
      lexText fuel (l.flatMap escTextChar ++ r) = some (l, r) := by
  induction l with
  | nil =>
      intro r fuel hf hr
      rw [show (([] : List Char).flatMap escTextChar) = [] from rfl] at hf ⊢
      rw [List.nil_append]
      cases fuel with
      | zero => omega
      | succ f =>
          cases r with
          | nil => rfl
          | cons c cs =>
              have hc := hr c rfl
              subst hc
              show lexText (f + 1) ('<' :: cs) = some ([], '<' :: cs)
              simp [lexText]
  | cons c l ih =>
      intro r fuel hf hr
      rw [flatMap_escTextChar_cons] at hf ⊢
      by_cases ha : c = '&'
      · subst ha
        rw [show escTextChar '&' = ['&', 'a', 'm', 'p', ';'] from rfl] at hf ⊢
        simp only [List.length_append, List.length_cons, List.length_nil] at hf
        cases fuel with
        | zero => omega
        | succ f =>
            simp only [List.cons_append, List.nil_append]
            show lexText (f + 1)
                ('&' :: ('a' :: 'm' :: 'p' :: ';' :: (l.flatMap escTextChar ++ r)))
              = some ('&' :: l, r)
            simp only [lexText, readEntity_amp]
            rw [ih r f (by omega) hr]
            simp
      · by_cases hb : c = '<'
        · subst hb
          rw [show escTextChar '<' = ['&', 'l', 't', ';'] from rfl] at hf ⊢
          simp only [List.length_append, List.length_cons, List.length_nil] at hf
          cases fuel with
          | zero => omega
          | succ f =>
              simp only [List.cons_append, List.nil_append]
              show lexText (f + 1)
                  ('&' :: ('l' :: 't' :: ';' :: (l.flatMap escTextChar ++ r)))
                = some ('<' :: l, r)
              simp only [lexText, readEntity_lt]
              rw [ih r f (by omega) hr]
              simp
        · by_cases hc : c = '>'
          · subst hc
            rw [show escTextChar '>' = ['&', 'g', 't', ';'] from rfl] at hf ⊢
            simp only [List.length_append, List.length_cons, List.length_nil] at hf
            cases fuel with
            | zero => omega
            | succ f =>
                simp only [List.cons_append, List.nil_append]
                show lexText (f + 1)
                    ('&' :: ('g' :: 't' :: ';' :: (l.flatMap escTextChar ++ r)))
                  = some ('>' :: l, r)
                simp only [lexText, readEntity_gt]
                rw [ih r f (by omega) hr]
                simp
          · rw [escTextChar_plain c ha hb hc] at hf ⊢
            simp only [List.length_cons, List.singleton_append] at hf ⊢
            cases fuel with
            | zero => omega
            | succ f =>
                show lexText (f + 1) (c :: (l.flatMap escTextChar ++ r))
                  = some (c :: l, r)
                simp only [lexText]
                rw [if_neg hb, if_neg ha]
                rw [ih r f (by omega) hr]
                rfl

theorem escAttrChar_plain (c : Char) (h0 : c ≠ '"') (h1 : c ≠ '&') (h2 : c ≠ '<')
    (h3 : c ≠ '>') : escAttrChar c = [c] := by
  simp [escAttrChar, escTextChar, h0, h1, h2, h3]

theorem lexAttrVal_escape (l : List Char) :
    ∀ (r : List Char) (fuel : Nat),
      (l.flatMap escAttrChar).length + 1 ≤ fuel →
      lexAttrVal fuel (l.flatMap escAttrChar ++ '"' :: r) = some (l, r) := by
  induction l with
  | nil =>
      intro r fuel hf
      rw [show (([] : List Char).flatMap escAttrChar) = [] from rfl] at hf ⊢
      rw [List.nil_append]
      cases fuel with
      | zero => omega
      | succ f =>
          show lexAttrVal (f + 1) ('"' :: r) = some ([], r)
          simp [lexAttrVal]
  | cons c l ih =>
      intro r fuel hf
      rw [flatMap_escAttrChar_cons] at hf ⊢
      by_cases hq : c = '"'
      · subst hq
        rw [show escAttrChar '"' = ['&', 'q', 'u', 'o', 't', ';'] from rfl] at hf ⊢
        simp only [List.length_append, List.length_cons, List.length_nil] at hf
        cases fuel with
        | zero => omega
        | succ f =>
            simp only [List.cons_append, List.nil_append]
            show lexAttrVal (f + 1)
                ('&' :: ('q' :: 'u' :: 'o' :: 't' :: ';' :: (l.flatMap escAttrChar ++ '"' :: r)))
              = some ('"' :: l, r)
            simp only [lexAttrVal, readEntity_quot]
            rw [ih r f (by omega)]
            simp
      · by_cases ha : c = '&'
        · subst ha
          rw [show escAttrChar '&' = ['&', 'a', 'm', 'p', ';'] from rfl] at hf ⊢
          simp only [List.length_append, List.length_cons, List.length_nil] at hf
          cases fuel with
          | zero => omega
          | succ f =>
              simp only [List.cons_append, List.nil_append]
              show lexAttrVal (f + 1)
                  ('&' :: ('a' :: 'm' :: 'p' :: ';' :: (l.flatMap escAttrChar ++ '"' :: r)))
                = some ('&' :: l, r)
              simp only [lexAttrVal, readEntity_amp]
              rw [ih r f (by omega)]
              simp
        · by_cases hb : c = '<'
          · subst hb
            rw [show escAttrChar '<' = ['&', 'l', 't', ';'] from rfl] at hf ⊢
            simp only [List.length_append, List.length_cons, List.length_nil] at hf
            cases fuel with
            | zero => omega
            | succ f =>
                simp only [List.cons_append, List.nil_append]
                show lexAttrVal (f + 1)
                    ('&' :: ('l' :: 't' :: ';' :: (l.flatMap escAttrChar ++ '"' :: r)))
                  = some ('<' :: l, r)
                simp only [lexAttrVal, readEntity_lt]
                rw [ih r f (by omega)]
                simp
          · by_cases hc : c = '>'
            · subst hc
              rw [show escAttrChar '>' = ['&', 'g', 't', ';'] from rfl] at hf ⊢
              simp only [List.length_append, List.length_cons, List.length_nil] at hf
              cases fuel with
              | zero => omega
              | succ f =>
                  simp only [List.cons_append, List.nil_append]
                  show lexAttrVal (f + 1)
                      ('&' :: ('g' :: 't' :: ';' :: (l.flatMap escAttrChar ++ '"' :: r)))
                    = some ('>' :: l, r)
                  simp only [lexAttrVal, readEntity_gt]
                  rw [ih r f (by omega)]
                  simp
            · rw [escAttrChar_plain c hq ha hb hc] at hf ⊢
              simp only [List.length_cons, List.singleton_append] at hf ⊢
              cases fuel with
              | zero => omega
              | succ f =>
                  show lexAttrVal (f + 1) (c :: (l.flatMap escAttrChar ++ '"' :: r))
                    = some (c :: l, r)
                  simp only [lexAttrVal]
                  rw [if_neg hq, if_neg ha]
                  rw [ih r f (by omega)]
                  rfl

theorem lexTextF_escape (l : List Char) (r : List Char)
    (hr : ∀ c, r.head? = some c → c = '<') :
    lexTextF (l.flatMap escTextChar ++ r) = some (l, r) := by
  unfold lexTextF
  exact lexText_escape l r _ (by simp only [List.length_append]; omega) hr

theorem lexAttrValF_escAttr (s : String) (r : List Char) :
    lexAttrValF (escAttr s ++ '"' :: r) = some (s.data, r) := by
  unfold lexAttrValF
  rw [show escAttr s = s.data.flatMap escAttrChar from rfl]
  exact lexAttrVal_escape s.data r _ (by simp only [List.length_append]; omega)

theorem lexAttrs_gen (attrs : List (String × String)) :
    ∀ (r : List Char) (fuel : Nat),
      attrs.length + 1 ≤ fuel →
      (∀ a ∈ attrs, validName a.1 = true) →
      lexAttrs fuel (genAttrs attrs ++ '>' :: r) = some (attrs, '>' :: r) := by
  induction attrs with
  | nil =>
      intro r fuel hf _
      rw [show genAttrs [] = [] from rfl, List.nil_append]
      cases fuel with
      | zero => omega
      | succ f =>
          show lexAttrs (f + 1) ('>' :: r) = some ([], '>' :: r)
          simp only [lexAttrs]
          rw [skipWs_not_ws '>' r (by decide)]
          simp
  | cons a attrs ih =>
      intro r fuel hf hv
      have hva := hv a (List.mem_cons_self a attrs)
      have hrest : ∀ x ∈ attrs, validName x.1 = true :=
        fun x hx => hv x (List.mem_cons_of_mem a hx)
      obtain ⟨hne, hall⟩ : a.1.data ≠ [] ∧ a.1.data.all isNameChar = true := by
        unfold validName at hva
        rw [Bool.and_eq_true] at hva
        exact ⟨by simpa using hva.1, hva.2⟩
      cases fuel with
      | zero => simp at hf
      | succ f =>
          have hstep : genAttrs (a :: attrs) ++ '>' :: r
              = ' ' :: (a.1.data
                  ++ ('=' :: '"' :: (escAttr a.2 ++ ('"' :: (genAttrs attrs ++ '>' :: r))))) := by
            show ((' ' :: (a.1.data ++ '=' :: '"' :: (escAttr a.2 ++ ['"'])))
                ++ genAttrs attrs) ++ '>' :: r = _
            simp [List.append_assoc]
          rw [hstep]
          simp only [lexAttrs]
          rw [skipWs_ws ' ' _ (by decide)]
          cases hd : a.1.data with
          | nil => exact absurd hd hne
          | cons c cs =>
              have hcname : isNameChar c = true := by
                rw [hd, List.all_cons, Bool.and_eq_true] at hall
                exact hall.1
              obtain ⟨hgt, hsl, _⟩ := nameChar_not_special c hcname
              rw [List.cons_append,
                skipWs_not_ws c _ (nameChar_not_ws c hcname)]
              dsimp only
              rw [if_neg (by simp [hgt, hsl])]
              rw [← List.cons_append, ← hd,
                lexName_gen a.1 _ hva
                  (by intro x hx; simp at hx; subst hx; decide)]
              try dsimp only
              rw [skipWs_not_ws '=' _ (by decide)]
              simp only []
              rw [skipWs_not_ws '"' _ (by decide)]
              simp only []
              rw [lexAttrValF_escAttr a.2 _]
              simp only []
              rw [ih r f (by simp at hf ⊢; omega) hrest]
              rfl

theorem jsToString_str (s : String) : jsToString (.str s) = s := by
  simp [jsToString]

theorem find?_append_none {α : Type} (p : α → Bool) (l1 l2 : List α)
    (h : l1.find? p = none) : (l1 ++ l2).find? p = l2.find? p := by
  induction l1 with
  | nil => simp
  | cons a l1 ih =>
      rw [List.find?_cons] at h
      cases hp : p a with
      | true => rw [hp] at h; exact Option.noConfusion h
      | false =>
          rw [hp] at h
          rw [List.cons_append, List.find?_cons, hp]
          exact ih h

theorem find?_key_none (l : List (String × JsVal)) (k : String)
    (h : ∀ q ∈ l, q.1 ≠ k) : l.find? (fun p => p.1 = k) = none := by
  induction l with
  | nil => rfl
  | cons a l ih =>
      rw [List.find?_cons, decide_eq_false (h a (List.mem_cons_self a l))]
      exact ih (fun q hq => h q (List.mem_cons_of_mem a hq))

theorem find?_attr_cons (M : JsVal) (L : List (String × JsVal)) (k : String) :
    ((k, M) :: L).find? (fun p => p.1 = k) = some (k, M) := by
  simp [List.find?_cons]

theorem attrsOf_mkElem (attrs : List (String × String)) (text : String)
    (children : List (String × JsVal))
    (hch : ∀ p ∈ children, p.1 ≠ "_attributes") :
    attrsOf (mkElem attrs text children) = attrs := by
  have hfind : ((if text = "" then ([] : List (String × JsVal))
      else [("_text", JsVal.str text)]) ++ children).find?
        (fun p => p.1 = "_attributes") = none := by
    apply find?_key_none
    intro q hq
    rw [List.mem_append] at hq
    rcases hq with hq | hq
    · split at hq
      · simp at hq
      · simp at hq
        rw [hq]
        show ("_text" : String) ≠ "_attributes"
        decide
    · exact hch q hq
  cases attrs with
  | nil =>
      unfold attrsOf mkElem getField
      simp only []
      rw [show (if ([] : List (String × String)).isEmpty then ([] : List (String × JsVal))
          else [("_attributes", JsVal.obj (([] : List (String × String)).map
            (fun a => (a.1, JsVal.str a.2))))]) = [] from rfl, List.nil_append]
      rw [hfind]
      rfl
  | cons a as =>
      unfold attrsOf mkElem getField
      simp only []
      rw [show (if ((a :: as : List (String × String))).isEmpty
            then ([] : List (String × JsVal))
          else [("_attributes", JsVal.obj ((a :: as).map (fun x => (x.1, JsVal.str x.2))))])
          = [("_attributes", JsVal.obj ((a :: as).map (fun x => (x.1, JsVal.str x.2))))]
          from rfl]
      rw [List.cons_append, List.nil_append, List.cons_append]
      rw [find?_attr_cons]
      show ((a :: as).map (fun x => (x.1, JsVal.str x.2))).map
        (fun p => (p.1, jsToString p.2)) = a :: as
      rw [List.map_map]
      conv_rhs => rw [← List.map_id (a :: as)]
      apply List.map_congr_left
      intro x _
      simp [jsToString_str, Function.comp]

theorem textOf_mkElem (attrs : List (String × String)) (text : String)
    (children : List (String × JsVal))
    (hch : ∀ p ∈ children, p.1 ≠ "_text") :
    textOf (mkElem attrs text children) = if text = "" then none else some text := by
  have hfindA : (if attrs.isEmpty then ([] : List (String × JsVal))
      else [("_attributes", JsVal.obj (attrs.map (fun a => (a.1, JsVal.str a.2))))]).find?
        (fun p => p.1 = "_text") = none := by
    apply find?_key_none
    intro q hq
    split at hq
    · simp at hq
    · simp at hq
      rw [hq]
      show ("_attributes" : String) ≠ "_text"
      decide
  unfold textOf mkElem getField
  simp only []
  rw [List.append_assoc]
  rw [find?_append_none _ _ _ hfindA]
  by_cases ht : text = ""
  · subst ht
    rw [show (if ("" : String) = "" then ([] : List (String × JsVal))
        else [("_text", JsVal.str "")]) = [] from rfl, List.nil_append]
    rw [find?_key_none _ _ hch]
    rfl
  · rw [if_neg ht, if_neg ht]
    rw [List.cons_append, List.nil_append]
    rw [find?_attr_cons (JsVal.str text) _ "_text"]
    show some (jsToString (JsVal.str text)) = some text
    rw [jsToString_str]

theorem childFields_mkElem (attrs : List (String × String)) (text : String)
    (children : List (String × JsVal))
    (hch : ∀ p ∈ children, p.1 ≠ "_attributes" ∧ p.1 ≠ "_text") :
    childFields (mkElem attrs text children) = children := by
  unfold childFields mkElem
  simp only []
  rw [List.filter_append, List.filter_append]
  have h1 : (if attrs.isEmpty then ([] : List (String × JsVal))
      else [("_attributes", JsVal.obj (attrs.map (fun a => (a.1, JsVal.str a.2))))]).filter
        (fun p => p.1 ≠ "_attributes" && p.1 ≠ "_text") = [] := by
    split
    · rfl
    · rfl
  have h2 : (if text = "" then ([] : List (String × JsVal))
      else [("_text", JsVal.str text)]).filter
        (fun p => p.1 ≠ "_attributes" && p.1 ≠ "_text") = [] := by
    split
    · rfl
    · rfl
  rw [h1, h2, List.nil_append, List.nil_append]
  rw [List.filter_eq_self]
  intro q hq
  obtain ⟨h1', h2'⟩ := hch q hq
  simp [h1', h2']

theorem genOne_obj_shape (indent : Nat) (tag : String) (fs : List (String × JsVal)) :
    ∃ t, genOne indent tag (.obj fs) = '<' :: t := by
  rw [genOne]
  simp only [List.cons_append, List.append_assoc]
  exact ⟨_, rfl⟩

theorem genSeq_stream (m : Bool) (indent : Nat) (tag : String) (xs : List JsVal) :
    genSeq m indent tag xs
      = (xs.map (fun x => (tag, x))).flatMap
          (fun p => (if m then [] else '\n' :: indentChars indent)
            ++ genOne indent p.1 p.2) := by
  induction xs with
  | nil => rw [genSeq]; rfl
  | cons x xs ih =>
      rw [genSeq, List.map_cons, List.flatMap_cons, ih]

theorem genFields_stream (m : Bool) (indent : Nat) (fs : List (String × JsVal)) :
    genFields m indent fs
      = (genItems fs).flatMap
          (fun p => (if m then [] else '\n' :: indentChars indent)
            ++ genOne indent p.1 p.2) := by
  induction fs with
  | nil => rw [genFields]; rfl
  | cons p fs ih =>
      obtain ⟨k, v⟩ := p
      rw [show genItems ((k, v) :: fs)
          = (if k = "_attributes" || k = "_text" then []
             else match v with
               | .arr xs => xs.map (fun x => (k, x))
               | w => [(k, w)]) ++ genItems fs from rfl]
      rw [List.flatMap_append]
      cases v with
      | arr xs =>
          simp only [genFields]
          rw [ih, genSeq_stream m indent k xs]
          by_cases hres : (k = "_attributes" || k = "_text") = true
          · rw [if_pos hres, if_pos hres]
            rfl
          · rw [if_neg hres, if_neg hres]
      | obj gs =>
          simp only [genFields]
          rw [ih]
          by_cases hres : (k = "_attributes" || k = "_text") = true
          · rw [if_pos hres, if_pos hres]
            rfl
          · rw [if_neg hres, if_neg hres]
            simp
      | str str0 =>
          simp only [genFields]
          rw [ih]
          by_cases hres : (k = "_attributes" || k = "_text") = true
          · rw [if_pos hres, if_pos hres]
            rfl
          · rw [if_neg hres, if_neg hres]
            simp

theorem wfElem_obj (v : JsVal) (h : WfElem v) : ∃ fs, v = .obj fs := by
  cases h with
  | mk attrs text children hattrs htext hkeys htags hvals => exact ⟨_, rfl⟩

theorem addChild_fresh (ch : List (String × JsVal)) (tag : String) (v : JsVal)
    (h : ∀ q ∈ ch, q.1 ≠ tag) : addChild ch tag v = ch ++ [(tag, v)] := by
  unfold addChild
  rw [find?_key_none ch tag h]

theorem find?_append_key (ch : List (String × JsVal)) (tag : String) (v : JsVal)
    (h : ∀ q ∈ ch, q.1 ≠ tag) :
    (ch ++ [(tag, v)]).find? (fun p => p.1 = tag) = some (tag, v) := by
  rw [find?_append_none _ _ _ (find?_key_none ch tag h), find?_attr_cons]

theorem map_overwrite_append (ch : List (String × JsVal)) (tag : String) (v w : JsVal)
    (h : ∀ q ∈ ch, q.1 ≠ tag) :
    (ch ++ [(tag, v)]).map (fun p => if p.1 = tag then (tag, w) else p)
      = ch ++ [(tag, w)] := by
  rw [List.map_append]
  congr 1
  · conv_rhs => rw [← List.map_id ch]
    apply List.map_congr_left
    intro q hq
    rw [if_neg (h q hq)]
    rfl
  · simp

theorem addChild_repeat_arr (ch : List (String × JsVal)) (tag : String)
    (xs : List JsVal) (v : JsVal) (h : ∀ q ∈ ch, q.1 ≠ tag) :
    addChild (ch ++ [(tag, .arr xs)]) tag v = ch ++ [(tag, .arr (xs ++ [v]))] := by
  unfold addChild
  rw [find?_append_key _ _ _ h]
  exact map_overwrite_append ch tag _ _ h

theorem addChild_repeat_obj (ch : List (String × JsVal)) (tag : String)
    (fs : List (String × JsVal)) (v : JsVal) (h : ∀ q ∈ ch, q.1 ≠ tag) :
    addChild (ch ++ [(tag, .obj fs)]) tag v = ch ++ [(tag, .arr [.obj fs, v])] := by
  unfold addChild
  rw [find?_append_key _ _ _ h]
  exact map_overwrite_append ch tag _ _ h

theorem fold_addChild_arr (ch : List (String × JsVal)) (tag : String)
    (h : ∀ q ∈ ch, q.1 ≠ tag) (ys : List JsVal) :
    ∀ (zs : List JsVal),
      List.foldl (fun acc p => addChild acc p.1 p.2) (ch ++ [(tag, .arr zs)])
        (ys.map (fun x => (tag, x)))
      = ch ++ [(tag, .arr (zs ++ ys))] := by
  induction ys with
  | nil => intro zs; simp
  | cons y ys ih =>
      intro zs
      rw [List.map_cons, List.foldl_cons]
      dsimp only
      rw [addChild_repeat_arr ch tag zs y h]
      rw [ih (zs ++ [y])]
      simp

theorem fold_addChild_items (children : List (String × JsVal)) :
    ∀ (acc : List (String × JsVal)),
      (∀ q ∈ acc, ∀ p ∈ children, q.1 ≠ p.1) →
      (children.map Prod.fst).Nodup →
      (∀ p ∈ children, p.1 ≠ "_attributes" ∧ p.1 ≠ "_text") →
      (∀ p ∈ children, WfChildVal p.2) →
      List.foldl (fun acc p => addChild acc p.1 p.2) acc (genItems children)
        = acc ++ children := by
  induction children with
  | nil =>
      intro acc _ _ _ _
      simp [genItems]
  | cons p children ih =>
      intro acc hdisj hnodup hres hwf
      obtain ⟨k, v⟩ := p
      have hresk := hres (k, v) (List.mem_cons_self _ _)
      have hwfv : WfChildVal v := hwf (k, v) (List.mem_cons_self _ _)
      have hfreshacc : ∀ q ∈ acc, q.1 ≠ k := by
        intro q hq
        exact hdisj q hq (k, v) (List.mem_cons_self _ _)
      have hknotin : k ∉ children.map Prod.fst := by
        rw [List.map_cons] at hnodup
        exact (List.nodup_cons.mp hnodup).1
      have hdisj' : ∀ q ∈ acc ++ [(k, v)], ∀ p ∈ children, q.1 ≠ p.1 := by
        intro q hq p hp
        rw [List.mem_append] at hq
        rcases hq with hq | hq
        · exact hdisj q hq p (List.mem_cons_of_mem _ hp)
        · rw [List.mem_singleton] at hq
          subst hq
          show k ≠ p.1
          intro he
          apply hknotin
          rw [he]
          exact List.mem_map_of_mem Prod.fst hp
      have hnodup' : (children.map Prod.fst).Nodup := by
        rw [List.map_cons] at hnodup
        exact (List.nodup_cons.mp hnodup).2
      have hres' : ∀ p ∈ children, p.1 ≠ "_attributes" ∧ p.1 ≠ "_text" :=
        fun p hp => hres p (List.mem_cons_of_mem _ hp)
      have hwf' : ∀ p ∈ children, WfChildVal p.2 :=
        fun p hp => hwf p (List.mem_cons_of_mem _ hp)
      rw [show genItems ((k, v) :: children)
          = (if k = "_attributes" || k = "_text" then []
             else match v with
               | .arr xs => xs.map (fun x => (k, x))
               | w => [(k, w)]) ++ genItems children from rfl]
      rw [if_neg (by simp [hresk.1, hresk.2])]
      rw [List.foldl_append]
      cases hwfv with
      | one fs hwfe =>
          simp only []
          rw [show List.foldl (fun acc p => addChild acc p.1 p.2) acc [(k, JsVal.obj fs)]
              = addChild acc k (JsVal.obj fs) from rfl]
          rw [addChild_fresh acc k _ hfreshacc]
          rw [ih (acc ++ [(k, JsVal.obj fs)]) hdisj' hnodup' hres' hwf']
          simp
      | many es hlen hall =>
          cases es with
          | nil => simp at hlen
          | cons x1 rest =>
              cases rest with
              | nil => simp at hlen
              | cons x2 ys =>
                  obtain ⟨fs1, hx1⟩ := wfElem_obj x1 (hall x1 (by simp))
                  subst hx1
                  simp only []
                  rw [show ((JsVal.obj fs1 :: x2 :: ys).map (fun x => (k, x)))
                      = (k, JsVal.obj fs1) :: (k, x2) :: ys.map (fun x => (k, x)) from rfl]
                  rw [List.foldl_cons, List.foldl_cons]
                  dsimp only
                  rw [addChild_fresh acc k _ hfreshacc]
                  rw [addChild_repeat_obj acc k fs1 x2 hfreshacc]
                  rw [fold_addChild_arr acc k hfreshacc ys [JsVal.obj fs1, x2]]
                  rw [show ([JsVal.obj fs1, x2] ++ ys) = JsVal.obj fs1 :: x2 :: ys from rfl]
                  rw [ih (acc ++ [(k, JsVal.arr (JsVal.obj fs1 :: x2 :: ys))])
                    hdisj' hnodup' hres' hwf']
                  simp

theorem addTextRun_nil (t : String) : addTextRun t [] = t := rfl

theorem addTextRun_append_ws (t : String) (d w : List Char) (hw : w.all isXmlWs = true)
    (hmix : d = [] ∨ w = []) : addTextRun t (d ++ w) = addTextRun t d := by
  rcases hmix with h | h
  · subst h
    rw [List.nil_append]
    unfold addTextRun
    rw [if_pos hw]
    rfl
  · subst h
    rw [List.append_nil]

theorem genOne_obj_split (indent : Nat) (tag : String) (fs : List (String × JsVal)) :
    ∃ t, genOne indent tag (.obj fs) = '<' :: (tag.data ++ t) := by
  rw [genOne]
  simp only [List.cons_append, List.append_assoc]
  exact ⟨_, rfl⟩

theorem parseStep_content_elem (fuel : Nat) (cs : List Char) (textAcc : String)
    (childAcc : List (String × JsVal)) (run : List Char) (c : Char) (t : List Char)
    (hlex : lexTextF cs = some (run, '<' :: c :: t))
    (hc1 : c ≠ '/') (hc2 : c ≠ '!') :
    parseStep (fuel + 1) (.content cs textAcc childAcc)
      = match parseStep fuel (.elem ('<' :: c :: t)) with
        | some (.elem tag v rest2) =>
            parseStep fuel (.content rest2 (addTextRun textAcc run) (addChild childAcc tag v))
        | _ => none := by
  rw [parseStep, hlex]
  simp only []
  split
  · rename_i heq
    simp at heq
  · rename_i heq
    rw [List.cons.injEq, List.cons.injEq] at heq
    exact absurd heq.2.1 hc1
  · rename_i heq
    rw [List.cons.injEq, List.cons.injEq] at heq
    exact absurd heq.2.1 hc2
  · rename_i r heq
    rw [List.cons.injEq] at heq
    rw [heq.2]
  · rename_i hne1 hne2 hne3 hne4
    exact absurd rfl (hne4 (c :: t))

theorem parseStep_content_eof (fuel : Nat) (cs : List Char) (textAcc : String)
    (childAcc : List (String × JsVal)) (run : List Char)
    (hlex : lexTextF cs = some (run, [])) :
    parseStep (fuel + 1) (.content cs textAcc childAcc)
      = some (.content (addTextRun textAcc run) childAcc []) := by
  rw [parseStep, hlex]

theorem parseStep_content_close (fuel : Nat) (cs : List Char) (textAcc : String)
    (childAcc : List (String × JsVal)) (run r : List Char)
    (hlex : lexTextF cs = some (run, '<' :: '/' :: r)) :
    parseStep (fuel + 1) (.content cs textAcc childAcc)
      = some (.content (addTextRun textAcc run) childAcc ('<' :: '/' :: r)) := by
  rw [parseStep, hlex]
  simp only []

theorem content_stream (indent : Nat) (sep : List Char)
    (hsep : sep.all isXmlWs = true)
    (hsepesc : sep.flatMap escTextChar = sep) :
    ∀ (items : List (String × JsVal)),
      (∀ p ∈ items, (∃ fs, p.2 = JsVal.obj fs) ∧ validName p.1 = true ∧
          ∀ (rest : List Char) (fuel : Nat),
            (genOne indent p.1 p.2).length ≤ fuel →
            parseStep fuel (.elem (genOne indent p.1 p.2 ++ rest))
              = some (.elem p.1 p.2 rest)) →
      ∀ (d0 wtail stop : List Char) (textAcc : String)
        (childAcc : List (String × JsVal)) (fuel : Nat),
        (stop = [] ∨ ∃ r, stop = '<' :: '/' :: r) →
        wtail.all isXmlWs = true →
        wtail.flatMap escTextChar = wtail →
        (d0 = [] ∨ (sep = [] ∧ wtail = [])) →
        (d0.flatMap escTextChar).length
            + ((items.flatMap (fun p => sep ++ genOne indent p.1 p.2)).length
              + (wtail.length + 1)) ≤ fuel →
        parseStep fuel (.content
            (d0.flatMap escTextChar
              ++ (items.flatMap (fun p => sep ++ genOne indent p.1 p.2)
                  ++ (wtail ++ stop)))
            textAcc childAcc)
          = some (.content (addTextRun textAcc d0)
              (List.foldl (fun acc p => addChild acc p.1 p.2) childAcc items) stop) := by
  intro items
  induction items with
  | nil =>
      intro _ d0 wtail stop textAcc childAcc fuel hstop hwt hwtesc hmix hfuel
      have hmix' : d0 = [] ∨ wtail = [] := by
        rcases hmix with h | h
        · exact Or.inl h
        · exact Or.inr h.2
      cases fuel with
      | zero => omega
      | succ f =>
          have hcomb : d0.flatMap escTextChar
              ++ (([] : List (String × JsVal)).flatMap
                    (fun p => sep ++ genOne indent p.1 p.2) ++ (wtail ++ stop))
              = (d0 ++ wtail).flatMap escTextChar ++ stop := by
            rw [show (([] : List (String × JsVal)).flatMap
              (fun p => sep ++ genOne indent p.1 p.2)) = [] from rfl]
            rw [List.flatMap_append, hwtesc, List.nil_append, List.append_assoc]
          rw [hcomb]
          have hhd : ∀ c, stop.head? = some c → c = '<' := by
            intro c hc
            rcases hstop with h | ⟨r, h⟩
            · subst h; simp at hc
            · subst h; simp at hc; subst hc; rfl
          have hlex := lexTextF_escape (d0 ++ wtail) stop hhd
          rcases hstop with hstop | ⟨r, hstop⟩
          · subst hstop
            rw [parseStep_content_eof f _ textAcc childAcc _ hlex]
            rw [addTextRun_append_ws textAcc d0 wtail hwt hmix']
            rfl
          · subst hstop
            rw [parseStep_content_close f _ textAcc childAcc _ r hlex]
            rw [addTextRun_append_ws textAcc d0 wtail hwt hmix']
            rfl
  | cons p items ih =>
      intro helem d0 wtail stop textAcc childAcc fuel hstop hwt hwtesc hmix hfuel
      obtain ⟨⟨fs, hpfs⟩, hpname, hpparse⟩ := helem p (List.mem_cons_self _ _)
      have helem' : ∀ q ∈ items, (∃ gs, q.2 = JsVal.obj gs) ∧ validName q.1 = true ∧
          ∀ (rest : List Char) (fuel : Nat),
            (genOne indent q.1 q.2).length ≤ fuel →
            parseStep fuel (.elem (genOne indent q.1 q.2 ++ rest))
              = some (.elem q.1 q.2 rest) :=
        fun q hq => helem q (List.mem_cons_of_mem _ hq)
      have hmix' : d0 = [] ∨ sep = [] := by
        rcases hmix with h | h
        · exact Or.inl h
        · exact Or.inr h.1
      obtain ⟨t0, hshape⟩ := genOne_obj_split indent p.1 fs
      have hG : genOne indent p.1 p.2 = '<' :: (p.1.data ++ t0) := by
        rw [hpfs]
        exact hshape
      obtain ⟨hpne, hpall⟩ : p.1.data ≠ [] ∧ p.1.data.all isNameChar = true := by
        unfold validName at hpname
        rw [Bool.and_eq_true] at hpname
        exact ⟨by simpa using hpname.1, hpname.2⟩
      cases hdta : p.1.data with
      | nil => exact absurd hdta hpne
      | cons c0 cs0 =>
          have hc0 : isNameChar c0 = true := by
            rw [hdta, List.all_cons, Bool.and_eq_true] at hpall
            exact hpall.1
          obtain ⟨_, hc0sl, hc0bang, _⟩ := nameChar_not_special c0 hc0
          rw [hdta, List.cons_append] at hG
          have hstream : (p :: items).flatMap (fun q => sep ++ genOne indent q.1 q.2)
              = (sep ++ genOne indent p.1 p.2)
                ++ items.flatMap (fun q => sep ++ genOne indent q.1 q.2) := rfl
          rw [hstream] at hfuel ⊢
          cases fuel with
          | zero =>
              rw [List.length_append] at hfuel
              omega
          | succ f =>
              have hinput : d0.flatMap escTextChar
                  ++ (((sep ++ genOne indent p.1 p.2)
                        ++ items.flatMap (fun q => sep ++ genOne indent q.1 q.2))
                      ++ (wtail ++ stop))
                  = (d0 ++ sep).flatMap escTextChar
                    ++ ('<' :: c0 :: ((cs0 ++ t0)
                        ++ (items.flatMap (fun q => sep ++ genOne indent q.1 q.2)
                            ++ (wtail ++ stop)))) := by
                rw [List.flatMap_append, hsepesc, hG]
                simp [List.append_assoc]
              rw [hinput]
              have hlex := lexTextF_escape (d0 ++ sep)
                ('<' :: c0 :: ((cs0 ++ t0)
                  ++ (items.flatMap (fun q => sep ++ genOne indent q.1 q.2)
                      ++ (wtail ++ stop))))
                (by intro x hx; simp at hx; subst hx; rfl)
              rw [parseStep_content_elem f _ textAcc childAcc _ c0 _ hlex hc0sl hc0bang]
              have helemstep : '<' :: c0 :: ((cs0 ++ t0)
                  ++ (items.flatMap (fun q => sep ++ genOne indent q.1 q.2)
                      ++ (wtail ++ stop)))
                  = genOne indent p.1 p.2
                    ++ (items.flatMap (fun q => sep ++ genOne indent q.1 q.2)
                        ++ (wtail ++ stop)) := by
                rw [hG]
                simp [List.append_assoc]
              rw [helemstep]
              have hglen : (genOne indent p.1 p.2).length ≤ f := by
                rw [List.length_append, List.length_append] at hfuel
                omega
              rw [hpparse _ f hglen]
              simp only []
              have hrest : items.flatMap (fun q => sep ++ genOne indent q.1 q.2)
                  ++ (wtail ++ stop)
                  = ([] : List Char).flatMap escTextChar
                    ++ (items.flatMap (fun q => sep ++ genOne indent q.1 q.2)
                        ++ (wtail ++ stop)) := rfl
              rw [hrest]
              have hfuel' : (([] : List Char).flatMap escTextChar).length
                  + ((items.flatMap (fun q => sep ++ genOne indent q.1 q.2)).length
                    + (wtail.length + 1)) ≤ f := by
                rw [List.length_append, List.length_append] at hfuel
                have hGlen : 1 ≤ (genOne indent p.1 p.2).length := by
                  rw [hG]
                  simp
                simp only [show (([] : List Char).flatMap escTextChar) = [] from rfl]
                simp only [List.length_nil]
                omega
              rw [ih helem' [] wtail stop
                (addTextRun textAcc (d0 ++ sep))
                (addChild childAcc p.1 p.2) f hstop hwt hwtesc (Or.inl rfl) hfuel']
              rw [addTextRun_nil]
              rw [addTextRun_append_ws textAcc d0 sep hsep hmix']
              rw [List.foldl_cons]

theorem ws_not_special (c : Char) (h : isXmlWs c = true) :
    c ≠ '&' ∧ c ≠ '<' ∧ c ≠ '>' := by
  unfold isXmlWs at h
  rcases Bool.or_eq_true _ _ |>.mp h with h' | h'
  · rcases Bool.or_eq_true _ _ |>.mp h' with h'' | h''
    · rcases Bool.or_eq_true _ _ |>.mp h'' with h3 | h3 <;>
        (simp at h3; subst h3; exact ⟨by decide, by decide, by decide⟩)
    · simp at h''
      subst h''
      exact ⟨by decide, by decide, by decide⟩
  · simp at h'
    subst h'
    exact ⟨by decide, by decide, by decide⟩

theorem flatMap_esc_ws (l : List Char) (h : l.all isXmlWs = true) :
    l.flatMap escTextChar = l := by
  induction l with
  | nil => rfl
  | cons c l ih =>
      rw [List.all_cons, Bool.and_eq_true] at h
      obtain ⟨h1, h2, h3⟩ := ws_not_special c h.1
      rw [flatMap_escTextChar_cons, escTextChar_plain c h1 h2 h3, ih h.2]
      rfl

theorem indent_ws (n : Nat) : ('\n' :: indentChars n).all isXmlWs = true := by
  rw [List.all_cons, Bool.and_eq_true]
  refine ⟨by decide, ?_⟩
  rw [List.all_eq_true]
  intro c hc
  rw [indentChars] at hc
  rw [List.eq_of_mem_replicate hc]
  decide

theorem genAttrs_length (attrs : List (String × String)) :
    attrs.length ≤ (genAttrs attrs).length := by
  induction attrs with
  | nil => simp [genAttrs]
  | cons a as ih =>
      rw [show genAttrs (a :: as)
          = (' ' :: (a.1.data ++ '=' :: '"' :: (escAttr a.2 ++ ['"']))) ++ genAttrs as
          from rfl]
      rw [List.length_append, List.length_cons, List.length_cons]
      omega

theorem lexAttrsF_gen (attrs : List (String × String)) (r : List Char)
    (hv : ∀ a ∈ attrs, validName a.1 = true) :
    lexAttrsF (genAttrs attrs ++ '>' :: r) = some (attrs, '>' :: r) := by
  unfold lexAttrsF
  apply lexAttrs_gen attrs r _ _ hv
  have := genAttrs_length attrs
  rw [List.length_append, List.length_cons]
  omega

theorem genAttrs_head_not_name (attrs : List (String × String)) (r : List Char) :
    ∀ c, (genAttrs attrs ++ '>' :: r).head? = some c → isNameChar c = false := by
  cases attrs with
  | nil =>
      intro c hc
      rw [show genAttrs [] = [] from rfl, List.nil_append] at hc
      simp at hc
      subst hc
      decide
  | cons a as =>
      intro c hc
      rw [show genAttrs (a :: as)
          = (' ' :: (a.1.data ++ '=' :: '"' :: (escAttr a.2 ++ ['"']))) ++ genAttrs as
          from rfl, List.cons_append, List.cons_append] at hc
      simp at hc
      subst hc
      decide

theorem addTextRun_empty_text (text : String) (h : text.data.all isXmlWs = false) :
    addTextRun "" text.data = text := by
  unfold addTextRun
  rw [h]
  rfl

theorem genItems_mkElem (attrs : List (String × String)) (text : String)
    (children : List (String × JsVal)) :
    genItems ((if attrs.isEmpty then []
        else [("_attributes", JsVal.obj (attrs.map (fun a => (a.1, JsVal.str a.2))))])
      ++ (if text = "" then [] else [("_text", JsVal.str text)])
      ++ children) = genItems children := by
  unfold genItems
  rw [List.flatMap_append, List.flatMap_append]
  have h1 : (if attrs.isEmpty then ([] : List (String × JsVal))
      else [("_attributes", JsVal.obj (attrs.map (fun a => (a.1, JsVal.str a.2))))]).flatMap
        (fun p => if p.1 = "_attributes" || p.1 = "_text" then []
          else match p.2 with
            | .arr xs => xs.map (fun x => (p.1, x))
            | w => [(p.1, w)]) = [] := by
    split
    · rfl
    · rfl
  have h2 : (if text = "" then ([] : List (String × JsVal))
      else [("_text", JsVal.str text)]).flatMap
        (fun p => if p.1 = "_attributes" || p.1 = "_text" then []
          else match p.2 with
            | .arr xs => xs.map (fun x => (p.1, x))
            | w => [(p.1, w)]) = [] := by
    split
    · rfl
    · rfl
  rw [h1, h2]
  rfl

theorem sizeOf_field_lt (fields : List (String × JsVal)) (p : String × JsVal)
    (hp : p ∈ fields) : sizeOf p.2 < sizeOf (JsVal.obj fields) := by
  have h1 := List.sizeOf_lt_of_mem hp
  obtain ⟨a, b⟩ := p
  simp only [JsVal.obj.sizeOf_spec]
  simp only [Prod.mk.sizeOf_spec] at h1
  show sizeOf b < 1 + sizeOf fields
  omega

theorem sizeOf_arr_mem (xs : List JsVal) (x : JsVal) (hx : x ∈ xs) :
    sizeOf x < sizeOf (JsVal.arr xs) := by
  have := List.sizeOf_lt_of_mem hx
  simp only [JsVal.arr.sizeOf_spec]
  omega

theorem genItems_mem :
    ∀ (children : List (String × JsVal)) (q : String × JsVal),
      q ∈ genItems children →
      ∃ p ∈ children, q.1 = p.1
        ∧ ((q.2 = p.2 ∧ ∀ xs, p.2 ≠ JsVal.arr xs)
            ∨ ∃ xs, p.2 = JsVal.arr xs ∧ q.2 ∈ xs) := by
  intro children
  induction children with
  | nil =>
      intro q hq
      simp [genItems] at hq
  | cons p children ih =>
      intro q hq
      rw [show genItems (p :: children)
          = (if p.1 = "_attributes" || p.1 = "_text" then []
             else match p.2 with
               | .arr xs => xs.map (fun x => (p.1, x))
               | w => [(p.1, w)]) ++ genItems children from rfl,
        List.mem_append] at hq
      rcases hq with hq | hq
      · obtain ⟨k, v⟩ := p
        by_cases hres : (k = "_attributes" || k = "_text") = true
        · rw [if_pos hres] at hq
          simp at hq
        · rw [if_neg hres] at hq
          cases v with
          | arr xs =>
              simp only [] at hq
              rw [List.mem_map] at hq
              obtain ⟨x, hx, hxq⟩ := hq
              subst hxq
              exact ⟨(k, JsVal.arr xs), List.mem_cons_self _ _, rfl,
                Or.inr ⟨xs, rfl, hx⟩⟩
          | obj gs =>
              simp only [] at hq
              rw [List.mem_singleton] at hq
              subst hq
              exact ⟨(k, JsVal.obj gs), List.mem_cons_self _ _, rfl,
                Or.inl ⟨rfl, by intro xs h; simp at h⟩⟩
          | str s0 =>
              simp only [] at hq
              rw [List.mem_singleton] at hq
              subst hq
              exact ⟨(k, JsVal.str s0), List.mem_cons_self _ _, rfl,
                Or.inl ⟨rfl, by intro xs h; simp at h⟩⟩
      · obtain ⟨p', hp', h⟩ := ih q hq
        exact ⟨p', List.mem_cons_of_mem _ hp', h⟩

theorem wfChildVal_inv (v : JsVal) (h : WfChildVal v) :
    (WfElem v ∧ ∀ xs, v ≠ JsVal.arr xs) ∨
      (∃ xs, v = JsVal.arr xs ∧ 2 ≤ xs.length ∧ ∀ x ∈ xs, WfElem x) := by
  cases h with
  | one fs hf => exact Or.inl ⟨hf, by intro xs hx; simp at hx⟩
  | many es hlen hall => exact Or.inr ⟨es, rfl, hlen, hall⟩

theorem parseStep_elem_gen (fuel : Nat) (tag : String) (attrs : List (String × String))
    (REST : List Char) (TXT : String) (CHN : List (String × JsVal)) (rest : List Char)
    (htag : validName tag = true) (htagt : tag ≠ "_text") (htaga : tag ≠ "_attributes")
    (hattrs : ∀ a ∈ attrs, validName a.1 = true)
    (hcontent : parseStep fuel (.content REST "" [])
        = some (.content TXT CHN ('<' :: '/' :: (tag.data ++ ('>' :: rest))))) :
    parseStep (fuel + 1)
        (.elem ('<' :: (tag.data ++ (genAttrs attrs ++ ('>' :: REST)))))
      = some (.elem tag (mkElem attrs TXT CHN) rest) := by
  rw [parseStep]
  try simp only []
  rw [lexName_gen tag _ htag (genAttrs_head_not_name attrs _)]
  try simp only []
  rw [if_neg (by simp [htagt, htaga])]
  rw [lexAttrsF_gen attrs _ hattrs]
  try simp only []
  rw [hcontent]
  try simp only []
  rw [lexName_gen tag ('>' :: rest) htag
    (by intro c hc; simp at hc; subst hc; decide)]
  try simp only []
  rw [if_pos trivial]
  rw [skipWs_not_ws '>' rest (by decide)]
  try simp only []

theorem elem_complete :
    ∀ (n : Nat) (v : JsVal), sizeOf v ≤ n → WfElem v →
      ∀ (tag : String) (indent : Nat) (rest : List Char) (fuel : Nat),
        validName tag = true → tag ≠ "_text" → tag ≠ "_attributes" →
        (genOne indent tag v).length ≤ fuel →
        parseStep fuel (.elem (genOne indent tag v ++ rest))
          = some (.elem tag v rest) := by
  intro n
  induction n with
  | zero =>
      intro v hsz hwf
      obtain ⟨fs, hv⟩ := wfElem_obj v hwf
      subst hv
      simp [JsVal.obj.sizeOf_spec] at hsz
  | succ n ihn =>
      intro v hsz hwf tag indent rest fuel htag htagt htaga hfuel
      cases hwf with
      | mk attrs text children hattrs htext hkeys htags hvals =>
          have hchA : ∀ p ∈ children, p.1 ≠ "_attributes" :=
            fun p hp => (htags p hp).2.2
          have hchT : ∀ p ∈ children, p.1 ≠ "_text" :=
            fun p hp => (htags p hp).2.1
          have hattrsOf := attrsOf_mkElem attrs text children hchA
          have htextOf := textOf_mkElem attrs text children hchT
          have hchildOf := childFields_mkElem attrs text children
            (fun p hp => ⟨hchA p hp, hchT p hp⟩)
          have hsz' : sizeOf (JsVal.obj (((if attrs.isEmpty then []
                  else [("_attributes", JsVal.obj (attrs.map (fun a => (a.1, JsVal.str a.2))))])
                ++ (if text = "" then [] else [("_text", JsVal.str text)])) ++ children)) ≤ n + 1 := hsz
          have helemAll : ∀ (ind : Nat), ∀ q ∈ genItems children,
              (∃ gs, q.2 = JsVal.obj gs) ∧ validName q.1 = true ∧
              ∀ (rest2 : List Char) (fuel2 : Nat),
                (genOne ind q.1 q.2).length ≤ fuel2 →
                parseStep fuel2 (.elem (genOne ind q.1 q.2 ++ rest2))
                  = some (.elem q.1 q.2 rest2) := by
            intro ind q hq
            obtain ⟨p, hp, hq1, hcase⟩ := genItems_mem children q hq
            have hptags := htags p hp
            have hpwf := hvals p hp
            have hpmem : p ∈ (((if attrs.isEmpty then []
                  else [("_attributes", JsVal.obj (attrs.map (fun a => (a.1, JsVal.str a.2))))])
                ++ (if text = "" then [] else [("_text", JsVal.str text)])) ++ children) :=
              List.mem_append.mpr (Or.inr hp)
            have hszp := sizeOf_field_lt _ p hpmem
            have hq2wf : WfElem q.2 ∧ sizeOf q.2 ≤ n := by
              rcases hcase with ⟨hq2, hnotarr⟩ | ⟨xs, hxs, hqx⟩
              · rcases wfChildVal_inv p.2 hpwf with ⟨hwfe, _⟩ | ⟨es, hes, _, _⟩
                · rw [hq2]
                  exact ⟨hwfe, by omega⟩
                · exact absurd hes (hnotarr es)
              · rcases wfChildVal_inv p.2 hpwf with ⟨_, hnot⟩ | ⟨es, hes, hlen2, hall⟩
                · exact absurd hxs (hnot xs)
                · rw [hxs] at hes
                  injection hes with hxe
                  subst hxe
                  have hsx := sizeOf_arr_mem xs q.2 hqx
                  rw [hxs] at hszp
                  exact ⟨hall q.2 hqx, by omega⟩
            refine ⟨?_, ?_, ?_⟩
            · exact wfElem_obj q.2 hq2wf.1
            · rw [hq1]
              exact hptags.1
            · intro rest2 fuel2 hf2
              have h1 : validName q.1 = true := by rw [hq1]; exact hptags.1
              have h2 : q.1 ≠ "_text" := by rw [hq1]; exact hptags.2.1
              have h3 : q.1 ≠ "_attributes" := by rw [hq1]; exact hptags.2.2
              exact ihn q.2 hq2wf.2 hq2wf.1 q.1 ind rest2 fuel2 h1 h2 h3 hf2
          have hMk : mkElem attrs text children = JsVal.obj (((if attrs.isEmpty then []
                  else [("_attributes", JsVal.obj (attrs.map (fun a => (a.1, JsVal.str a.2))))])
                ++ (if text = "" then [] else [("_text", JsVal.str text)])) ++ children) := rfl
          have hattrsOf2 : attrsOf (JsVal.obj (((if attrs.isEmpty then []
                  else [("_attributes", JsVal.obj (attrs.map (fun a => (a.1, JsVal.str a.2))))])
                ++ (if text = "" then [] else [("_text", JsVal.str text)])) ++ children)) = attrs := hattrsOf
          have htextOf2 : textOf (JsVal.obj (((if attrs.isEmpty then []
                  else [("_attributes", JsVal.obj (attrs.map (fun a => (a.1, JsVal.str a.2))))])
                ++ (if text = "" then [] else [("_text", JsVal.str text)])) ++ children))
              = if text = "" then none else some text := htextOf
          have hchildOf2 : childFields (JsVal.obj (((if attrs.isEmpty then []
                  else [("_attributes", JsVal.obj (attrs.map (fun a => (a.1, JsVal.str a.2))))])
                ++ (if text = "" then [] else [("_text", JsVal.str text)])) ++ children)) = children := hchildOf
          have hresC : ∀ p ∈ children, p.1 ≠ "_attributes" ∧ p.1 ≠ "_text" :=
            fun p hp => ⟨hchA p hp, hchT p hp⟩
          by_cases htxt : text = ""
          · have hTnone : textOf (JsVal.obj (((if attrs.isEmpty then []
                  else [("_attributes", JsVal.obj (attrs.map (fun a => (a.1, JsVal.str a.2))))])
                ++ (if text = "" then [] else [("_text", JsVal.str text)])) ++ children)) = none := by
              rw [htextOf2, if_pos htxt]
            cases children with
            | nil =>
                have hbodyNil : (if ((childFields (JsVal.obj (((if attrs.isEmpty then []
                  else [("_attributes", JsVal.obj (attrs.map (fun a => (a.1, JsVal.str a.2))))])
                ++ (if text = "" then [] else [("_text", JsVal.str text)])) ++ ([] : List (String × JsVal))))).isEmpty : Bool) = true
                    then ([] : List Char)
                    else genFields false (indent + 1) (((if attrs.isEmpty then []
                  else [("_attributes", JsVal.obj (attrs.map (fun a => (a.1, JsVal.str a.2))))])
                ++ (if text = "" then [] else [("_text", JsVal.str text)])) ++ ([] : List (String × JsVal)))
                      ++ ('\n' :: indentChars indent)) = [] := by
                  rw [hchildOf2]
                  rfl
                have hbody : genOne indent tag (mkElem attrs text []) ++ rest
                    = '<' :: (tag.data ++ (genAttrs attrs ++ ('>' ::
                        (([] : List Char).flatMap escTextChar
                          ++ ((genItems ([] : List (String × JsVal))).flatMap
                                (fun q => (if (true : Bool) = true then ([] : List Char)
                                    else '\n' :: indentChars indent)
                                  ++ genOne indent q.1 q.2)
                              ++ (([] : List Char)
                                ++ ('<' :: '/' :: (tag.data ++ ('>' :: rest))))))))) := by
                  rw [hMk, genOne, hattrsOf2, hTnone]
                  simp only []
                  rw [hbodyNil]
                  simp only [show (genItems ([] : List (String × JsVal))) = [] from rfl,
                    show (([] : List Char).flatMap escTextChar) = [] from rfl,
                    List.flatMap_nil, List.nil_append, List.append_nil,
                    List.cons_append, List.append_assoc]
                have hlen := congrArg List.length hbody
                simp only [List.length_append, List.length_cons, List.length_nil] at hlen
                cases fuel with
                | zero => omega
                | succ f =>
                    rw [hbody]
                    rw [parseStep_elem_gen f tag attrs _ _ _ rest htag htagt htaga hattrs
                      (content_stream indent
                        (if (true : Bool) = true then ([] : List Char)
                          else '\n' :: indentChars indent) (by rfl) (by rfl)
                        (genItems ([] : List (String × JsVal))) (helemAll indent)
                        [] [] ('<' :: '/' :: (tag.data ++ ('>' :: rest))) "" [] f
                        (Or.inr ⟨_, rfl⟩) (by rfl) (by rfl) (Or.inl rfl)
                        (by
                          simp only [show (genItems ([] : List (String × JsVal))) = [] from rfl,
                            List.flatMap_nil, List.length_nil,
                            show (([] : List Char).flatMap escTextChar) = [] from rfl]
                          omega))]
                    rw [addTextRun_nil]
                    rw [show List.foldl (fun acc p => addChild acc p.1 p.2)
                        ([] : List (String × JsVal))
                        (genItems ([] : List (String × JsVal))) = [] from rfl]
                    rw [htxt]
            | cons ch0 chs =>
                have hbodyCons : (if ((childFields (JsVal.obj (((if attrs.isEmpty then []
                  else [("_attributes", JsVal.obj (attrs.map (fun a => (a.1, JsVal.str a.2))))])
                ++ (if text = "" then [] else [("_text", JsVal.str text)])) ++ (ch0 :: chs)))).isEmpty : Bool) = true
                    then ([] : List Char)
                    else genFields false (indent + 1) (((if attrs.isEmpty then []
                  else [("_attributes", JsVal.obj (attrs.map (fun a => (a.1, JsVal.str a.2))))])
                ++ (if text = "" then [] else [("_text", JsVal.str text)])) ++ (ch0 :: chs))
                      ++ ('\n' :: indentChars indent))
                    = genFields false (indent + 1) (((if attrs.isEmpty then []
                  else [("_attributes", JsVal.obj (attrs.map (fun a => (a.1, JsVal.str a.2))))])
                ++ (if text = "" then [] else [("_text", JsVal.str text)])) ++ (ch0 :: chs))
                      ++ ('\n' :: indentChars indent) := by
                  rw [hchildOf2]
                  rfl
                have hbody : genOne indent tag (mkElem attrs text (ch0 :: chs)) ++ rest
                    = '<' :: (tag.data ++ (genAttrs attrs ++ ('>' ::
                        (([] : List Char).flatMap escTextChar
                          ++ ((genItems (ch0 :: chs)).flatMap
                                (fun q => (if (false : Bool) = true then ([] : List Char)
                                    else '\n' :: indentChars (indent + 1))
                                  ++ genOne (indent + 1) q.1 q.2)
                              ++ (('\n' :: indentChars indent)
                                ++ ('<' :: '/' :: (tag.data ++ ('>' :: rest))))))))) := by
                  rw [hMk, genOne, hattrsOf2, hTnone]
                  simp only []
                  rw [hbodyCons]
                  rw [genFields_stream false (indent + 1) _, genItems_mkElem]
                  simp only [show (([] : List Char).flatMap escTextChar) = [] from rfl,
                    List.nil_append, List.cons_append, List.append_assoc]
                have hlen := congrArg List.length hbody
                simp only [List.length_append, List.length_cons, List.length_nil] at hlen
                cases fuel with
                | zero => omega
                | succ f =>
                    rw [hbody]
                    rw [parseStep_elem_gen f tag attrs _ _ _ rest htag htagt htaga hattrs
                      (content_stream (indent + 1)
                        (if (false : Bool) = true then ([] : List Char)
                          else '\n' :: indentChars (indent + 1))
                        (by exact indent_ws (indent + 1))
                        (by exact flatMap_esc_ws _ (indent_ws (indent + 1)))
                        (genItems (ch0 :: chs)) (helemAll (indent + 1))
                        [] ('\n' :: indentChars indent)
                        ('<' :: '/' :: (tag.data ++ ('>' :: rest))) "" [] f
                        (Or.inr ⟨_, rfl⟩) (indent_ws indent)
                        (flatMap_esc_ws _ (indent_ws indent)) (Or.inl rfl)
                        (by
                          simp only [show (([] : List Char).flatMap escTextChar) = [] from rfl,
                            List.length_nil, List.length_cons]
                          omega))]
                    rw [addTextRun_nil]
                    rw [fold_addChild_items (ch0 :: chs) [] (by simp) hkeys hresC hvals]
                    rw [List.nil_append, htxt]
          · have htextA : text.data.all isXmlWs = false := by
              rcases htext with h | h
              · exact absurd h htxt
              · exact h
            have hTsome : textOf (JsVal.obj (((if attrs.isEmpty then []
                  else [("_attributes", JsVal.obj (attrs.map (fun a => (a.1, JsVal.str a.2))))])
                ++ (if text = "" then [] else [("_text", JsVal.str text)])) ++ children)) = some text := by
              rw [htextOf2, if_neg htxt]
            have hbody : genOne indent tag (mkElem attrs text children) ++ rest
                = '<' :: (tag.data ++ (genAttrs attrs ++ ('>' ::
                    (text.data.flatMap escTextChar
                      ++ ((genItems children).flatMap
                            (fun q => (if (true : Bool) = true then ([] : List Char)
                                else '\n' :: indentChars indent)
                              ++ genOne indent q.1 q.2)
                          ++ (([] : List Char)
                            ++ ('<' :: '/' :: (tag.data ++ ('>' :: rest))))))))) := by
              rw [hMk, genOne, hattrsOf2, hTsome]
              simp only []
              rw [genFields_stream true indent _, genItems_mkElem]
              rw [show escText text = text.data.flatMap escTextChar from rfl]
              simp only [List.nil_append, List.cons_append, List.append_assoc]
            have hlen := congrArg List.length hbody
            simp only [List.length_append, List.length_cons, List.length_nil] at hlen
            cases fuel with
            | zero => omega
            | succ f =>
                rw [hbody]
                rw [parseStep_elem_gen f tag attrs _ _ _ rest htag htagt htaga hattrs
                  (content_stream indent
                    (if (true : Bool) = true then ([] : List Char)
                      else '\n' :: indentChars indent) (by rfl) (by rfl)
                    (genItems children) (helemAll indent)
                    text.data [] ('<' :: '/' :: (tag.data ++ ('>' :: rest))) "" [] f
                    (Or.inr ⟨_, rfl⟩) (by rfl) (by rfl) (Or.inr ⟨rfl, rfl⟩)
                    (by
                      simp only [List.length_nil]
                      omega))]
                rw [addTextRun_empty_text text htextA]
                rw [fold_addChild_items children [] (by simp) hkeys hresC hvals]
                rw [List.nil_append]

theorem all_takeWhile (p : Char → Bool) (l : List Char) :
    (l.takeWhile p).all p = true := by
  induction l with
  | nil => rfl
  | cons c l ih =>
      rw [List.takeWhile_cons]
      split
      · rw [List.all_cons, Bool.and_eq_true]
        exact ⟨by assumption, ih⟩
      · rfl

theorem lexName_sound (cs : List Char) (tag : String) (r : List Char)
    (h : lexName cs = some (tag, r)) : validName tag = true := by
  unfold lexName at h
  split at h
  · exact Option.noConfusion h
  · rename_i hno
    rw [Option.some.injEq, Prod.mk.injEq] at h
    obtain ⟨h1, _⟩ := h
    subst h1
    show (!(List.takeWhile isNameChar cs).isEmpty
      && (List.takeWhile isNameChar cs).all isNameChar) = true
    rw [Bool.and_eq_true]
    refine ⟨?_, all_takeWhile isNameChar cs⟩
    cases htk : List.takeWhile isNameChar cs with
    | nil => exact absurd htk hno
    | cons c l => rfl

theorem lexAttrs_sound :
    ∀ (fuel : Nat) (cs : List Char) (attrs : List (String × String)) (r : List Char),
      lexAttrs fuel cs = some (attrs, r) → ∀ a ∈ attrs, validName a.1 = true := by
  intro fuel
  induction fuel with
  | zero =>
      intro cs attrs r h
      exact Option.noConfusion h
  | succ f ih =>
      intro cs attrs r h
      rw [lexAttrs] at h
      split at h
      · exact Option.noConfusion h
      · split at h
        · rw [Option.some.injEq, Prod.mk.injEq] at h
          obtain ⟨h1, _⟩ := h
          subst h1
          intro a ha
          simp at ha
        · split at h
          · exact Option.noConfusion h
          · rename_i n r1 hname
            split at h
            · split at h
              · split at h
                · rename_i v r4 hval
                  rw [Option.map_eq_some'] at h
                  obtain ⟨p, hp, hpe⟩ := h
                  rw [Prod.mk.injEq] at hpe
                  obtain ⟨hpe1, _⟩ := hpe
                  subst hpe1
                  intro a ha
                  rw [List.mem_cons] at ha
                  rcases ha with ha | ha
                  · subst ha
                    exact lexName_sound _ _ _ hname
                  · exact ih _ p.1 p.2 hp a ha
                · exact Option.noConfusion h
              · exact Option.noConfusion h
            · exact Option.noConfusion h
theorem addTextRun_inv (t : String) (run : List Char) (h : textInv t) :
    textInv (addTextRun t run) := by
  unfold textInv addTextRun
  by_cases hw : run.all isXmlWs = true
  · rw [if_pos hw]; exact h
  · rw [if_neg hw]
    rw [Bool.not_eq_true] at hw
    right
    rw [String.data_append]
    rw [show (String.mk run).data = run from rfl]
    rw [List.all_append, hw, Bool.and_false]

theorem map_fst_overwrite (ch : List (String × JsVal)) (tag : String) (w : JsVal) :
    ((ch.map (fun p => if p.1 = tag then (tag, w) else p)).map Prod.fst)
      = ch.map Prod.fst := by
  rw [List.map_map]
  apply List.map_congr_left
  intro p hp
  simp only [Function.comp_apply]
  by_cases h : p.1 = tag
  · rw [if_pos h]; exact h.symm
  · rw [if_neg h]

theorem childInv_overwrite (ch : List (String × JsVal)) (tag : String) (w : JsVal)
    (hch : childInv ch) (htag : validName tag = true) (ht : tag ≠ "_text")
    (ha : tag ≠ "_attributes") (hw : WfChildVal w) :
    childInv (ch.map (fun p => if p.1 = tag then (tag, w) else p)) := by
  obtain ⟨hnodup, hmem⟩ := hch
  refine And.intro ?_ ?_
  · rw [map_fst_overwrite]; exact hnodup
  · intro q hq
    obtain ⟨p, hp, hpe⟩ := List.mem_map.mp hq
    by_cases hc : p.1 = tag
    · rw [if_pos hc] at hpe
      subst hpe
      exact ⟨htag, ht, ha, hw⟩
    · rw [if_neg hc] at hpe
      subst hpe
      exact hmem p hp

theorem find?_key_mem (ch : List (String × JsVal)) (tag : String) (q : String × JsVal)
    (h : ch.find? (fun p => p.1 = tag) = some q) : q ∈ ch ∧ q.1 = tag := by
  refine ⟨List.mem_of_find?_eq_some h, ?_⟩
  have h2 := List.find?_some h
  exact of_decide_eq_true h2

theorem addChild_inv (ch : List (String × JsVal)) (tag : String) (v : JsVal)
    (hch : childInv ch) (htag : validName tag = true) (ht : tag ≠ "_text")
    (ha : tag ≠ "_attributes") (hv : WfElem v) :
    childInv (addChild ch tag v) := by
  obtain ⟨vfs, hveq⟩ := wfElem_obj v hv
  subst hveq
  unfold addChild
  cases hf : ch.find? (fun p => p.1 = tag) with
  | none =>
      have hfresh : ∀ q ∈ ch, q.1 ≠ tag := by
        intro q hq he
        have h2 := List.find?_eq_none.mp hf q hq
        exact h2 (by simp [he])
      obtain ⟨hnodup, hmem⟩ := hch
      refine And.intro ?_ ?_
      · rw [List.map_append, List.nodup_append]
        refine ⟨hnodup, List.nodup_singleton _, ?_⟩
        intro a hain hbin
        rw [List.map_singleton, List.mem_singleton] at hbin
        subst hbin
        obtain ⟨p, hp, hpe⟩ := List.mem_map.mp hain
        exact hfresh p hp hpe
      · intro q hq
        rw [List.mem_append] at hq
        rcases hq with hq | hq
        · exact hmem q hq
        · rw [List.mem_singleton] at hq
          subst hq
          exact ⟨htag, ht, ha, WfChildVal.one vfs hv⟩
  | some q =>
      obtain ⟨hqmem, hqtag⟩ := find?_key_mem ch tag q hf
      obtain ⟨k, w⟩ := q
      have hwq : WfChildVal w := ((hch.2) (k, w) hqmem).2.2.2
      cases w with
      | str s => cases hwq
      | obj ofs =>
          simp only []
          cases hwq with
          | one gs h2 =>
              apply childInv_overwrite ch tag _ hch htag ht ha
              refine WfChildVal.many [JsVal.obj ofs, JsVal.obj vfs] (by simp) ?_
              intro e he
              rw [List.mem_cons, List.mem_singleton] at he
              rcases he with he | he
              · subst he; exact h2
              · subst he; exact hv
      | arr xs =>
          simp only []
          cases hwq with
          | many es hlen hall =>
              apply childInv_overwrite ch tag _ hch htag ht ha
              refine WfChildVal.many _ (by rw [List.length_append]; omega) ?_
              intro e he
              rw [List.mem_append] at he
              rcases he with he | he
              · exact hall e he
              · rw [List.mem_singleton] at he
                subst he
                exact hv

theorem parseStep_sound :
    ∀ (fuel : Nat),
      (∀ (cs : List Char) (tag : String) (v : JsVal) (rest : List Char),
        parseStep fuel (.elem cs) = some (.elem tag v rest) →
        validName tag = true ∧ tag ≠ "_text" ∧ tag ≠ "_attributes" ∧ WfElem v)
      ∧ (∀ (cs : List Char) (textAcc : String) (childAcc : List (String × JsVal))
          (text : String) (children : List (String × JsVal)) (rest : List Char),
          textInv textAcc → childInv childAcc →
          parseStep fuel (.content cs textAcc childAcc)
            = some (.content text children rest) →
          textInv text ∧ childInv children) := by
  intro fuel
  induction fuel with
  | zero =>
      constructor
      · intro cs tag v rest h
        exact Option.noConfusion h
      · intro cs textAcc childAcc text children rest _ _ h
        exact Option.noConfusion h
  | succ f ih =>
      constructor
      · intro cs tag v rest h
        have hhead : ∃ r, cs = '<' :: r := by
          rcases cs with _ | ⟨c, r⟩
          · exact Option.noConfusion
              ((parseStep.eq_4 f [] (fun r hr => List.noConfusion hr)).symm.trans h)
          · by_cases hc : c = '<'
            · exact ⟨r, by rw [hc]⟩
            · refine Option.noConfusion ((parseStep.eq_4 f (c :: r) ?_).symm.trans h)
              intro r2 hr2
              injection hr2 with h1 h2
              exact hc h1
        obtain ⟨r, hcs⟩ := hhead
        subst hcs
        rw [parseStep.eq_3] at h
        split at h
        all_goals try exact Option.noConfusion h
        rename_i tag0 r1 hname
        split at h
        all_goals try exact Option.noConfusion h
        rename_i hres
        have hresb : tag0 ≠ "_text" ∧ tag0 ≠ "_attributes" := by simpa using hres
        split at h
        all_goals try exact Option.noConfusion h
        rename_i attrs r2 hattrs
        split at h
        all_goals try exact Option.noConfusion h
        all_goals
          first
          | (rw [Option.some.injEq] at h;
             injection h with h1 h2 h3;
             subst h1;
             subst h2;
             exact ⟨lexName_sound _ tag0 r1 hname, hresb.1, hresb.2,
               WfElem.mk attrs "" []
                 (fun a ha => lexAttrs_sound (r1.length + 1) r1 attrs _ hattrs a ha)
                 (Or.inl rfl) (by simp)
                 (fun p hp => absurd hp (List.not_mem_nil p))
                 (fun p hp => absurd hp (List.not_mem_nil p))⟩)
          | (split at h;
             all_goals try exact Option.noConfusion h;
             rename_i text0 children0 r4 hcontent;
             split at h;
             all_goals try exact Option.noConfusion h;
             split at h;
             all_goals try exact Option.noConfusion h;
             split at h;
             all_goals try exact Option.noConfusion h;
             split at h;
             all_goals try exact Option.noConfusion h;
             rw [Option.some.injEq] at h;
             injection h with h1 h2 h3;
             subst h1;
             subst h2;
             have hc := ih.2 _ "" [] text0 children0 _ (Or.inl rfl)
               (And.intro (by simp) (fun p hp => absurd hp (List.not_mem_nil p)))
               hcontent;
             obtain ⟨hct, hcc⟩ := hc;
             unfold childInv at hcc;
             exact ⟨lexName_sound _ tag0 r1 hname, hresb.1, hresb.2,
               WfElem.mk attrs text0 children0
                 (fun a ha => lexAttrs_sound (r1.length + 1) r1 attrs _ hattrs a ha)
                 hct hcc.1
                 (fun p hp => ⟨(hcc.2 p hp).1, (hcc.2 p hp).2.1, (hcc.2 p hp).2.2.1⟩)
                 (fun p hp => (hcc.2 p hp).2.2.2)⟩)
      · intro cs textAcc childAcc text children rest htA hcA h
        rw [parseStep] at h
        split at h
        all_goals try exact Option.noConfusion h
        rename_i run rest0 hlex
        split at h
        all_goals try exact Option.noConfusion h
        all_goals
          first
          | (rw [Option.some.injEq] at h;
             injection h with h1 h2 h3;
             subst h1;
             subst h2;
             exact ⟨addTextRun_inv textAcc run htA, hcA⟩)
          | (split at h;
             all_goals try exact Option.noConfusion h;
             first
             | exact ih.2 _ _ _ _ _ _ (addTextRun_inv textAcc run htA) hcA h
             | (rename_i tag0 v0 rest2 helem;
                have he := ih.1 _ tag0 v0 rest2 helem;
                exact ih.2 _ _ _ _ _ _ (addTextRun_inv textAcc run htA)
                  (addChild_inv childAcc tag0 v0 hcA he.1 he.2.1 he.2.2.1 he.2.2.2) h))

theorem parseXML_sound (s : String) (t : JsVal) (h : parseXML s = some t) :
    ∃ (tag : String) (fs : List (String × JsVal)),
      t = .obj [(tag, .obj fs)] ∧ validName tag = true ∧ tag ≠ "_text"
        ∧ tag ≠ "_attributes" ∧ WfElem (.obj fs) := by
  unfold parseXML at h
  split at h
  all_goals try exact Option.noConfusion h
  rename_i cs hdecl
  split at h
  all_goals try exact Option.noConfusion h
  rename_i t0 tag fs hstep
  split at h
  all_goals try exact Option.noConfusion h
  rw [Option.some.injEq] at h
  subst h
  have hc := (parseStep_sound (cs.length + 1)).2 (skipWs cs) "" [] t0
    [(tag, .obj fs)] [] (Or.inl rfl)
    (And.intro (by simp) (fun p hp => absurd hp (List.not_mem_nil p))) hstep
  have hcc := hc.2
  unfold childInv at hcc
  have hm := hcc.2 (tag, .obj fs) (List.mem_cons_self _ _)
  refine ⟨tag, fs, rfl, hm.1, hm.2.1, hm.2.2.1, ?_⟩
  have hwcv : WfChildVal (JsVal.obj fs) := hm.2.2.2
  cases hwcv with
  | one gs h2 => exact h2
theorem genFields_root (tag : String) (fs : List (String × JsVal))
    (htagt : tag ≠ "_text") (htaga : tag ≠ "_attributes") :
    genFields false 0 [(tag, JsVal.obj fs)]
      = '\n' :: genOne 0 tag (JsVal.obj fs) := by
  simp only [genFields]
  simp [htagt, htaga, indentChars]

/-- C3: for every input that `parseXML` accepts, serializing the resulting
compact tree with `generateXML` and re-parsing it recovers exactly the same
tree: the same tag names, attributes, text values, and child ordering and
cardinality survive the round trip (the generated text itself may lay
whitespace out differently than the original input). -/
theorem parseXML_generateXML_roundtrip (x : String) (t : JsVal)
    (h : parseXML x = some t) : parseXML (generateXML t) = some t := by
  obtain ⟨tag, fs, ht, htag, htagt, htaga, hwf⟩ := parseXML_sound x t h
  subst ht
  rw [show generateXML (JsVal.obj [(tag, JsVal.obj fs)])
      = String.mk (xmlDeclChars ++ genFields false 0 [(tag, JsVal.obj fs)]) from rfl]
  rw [genFields_root tag fs htagt htaga]
  unfold parseXML
  rw [show skipDecl (skipWs (String.mk
        (xmlDeclChars ++ ('\n' :: genOne 0 tag (JsVal.obj fs)))).data)
      = some ('\n' :: genOne 0 tag (JsVal.obj fs)) from rfl]
  simp only []
  rw [skipWs_ws '\n' _ (by decide)]
  obtain ⟨t0, hsplit⟩ := genOne_obj_split 0 tag fs
  rw [hsplit, skipWs_not_ws '<' _ (by decide), ← hsplit]
  have hitems : ∀ p ∈ [(tag, JsVal.obj fs)], (∃ gs, p.2 = JsVal.obj gs)
      ∧ validName p.1 = true
      ∧ ∀ (rest : List Char) (fuel : Nat),
          (genOne 0 p.1 p.2).length ≤ fuel →
          parseStep fuel (.elem (genOne 0 p.1 p.2 ++ rest))
            = some (.elem p.1 p.2 rest) := by
    intro p hp
    rw [List.mem_singleton] at hp
    subst hp
    refine ⟨⟨fs, rfl⟩, htag, ?_⟩
    intro rest fuel hfuel
    exact elem_complete (sizeOf (JsVal.obj fs)) (JsVal.obj fs) le_rfl hwf tag 0
      rest fuel htag htagt htaga hfuel
  have hfuel : (([] : List Char).flatMap escTextChar).length
      + (([(tag, JsVal.obj fs)].flatMap (fun p => [] ++ genOne 0 p.1 p.2)).length
        + (([] : List Char).length + 1))
      ≤ ('\n' :: genOne 0 tag (JsVal.obj fs)).length + 1 := by
    simp
  have hstream := content_stream 0 [] rfl rfl [(tag, JsVal.obj fs)] hitems
    [] [] [] "" [] (('\n' :: genOne 0 tag (JsVal.obj fs)).length + 1)
    (Or.inl rfl) rfl rfl (Or.inl rfl) hfuel
  have hin : ([] : List Char).flatMap escTextChar
      ++ ([(tag, JsVal.obj fs)].flatMap (fun p => [] ++ genOne 0 p.1 p.2)
          ++ (([] : List Char) ++ ([] : List Char)))
      = genOne 0 tag (JsVal.obj fs) := by
    simp
  rw [hin] at hstream
  rw [addTextRun_nil] at hstream
  rw [show List.foldl (fun acc p => addChild acc p.1 p.2)
      ([] : List (String × JsVal)) [(tag, JsVal.obj fs)]
      = addChild [] tag (JsVal.obj fs) from rfl] at hstream
  rw [addChild_fresh [] tag (JsVal.obj fs)
    (fun q hq => absurd hq (List.not_mem_nil q))] at hstream
  rw [List.nil_append] at hstream
  rw [hstream]
  simp only []
  rw [if_pos trivial]

set_option maxRecDepth 4000 in
/-- C3 (witness): the round trip at a concrete document with attributes, a
repeated child tag and text content. -/
theorem parseXML_generateXML_roundtrip_witness :
    parseXML rtDocStr = some rtDocTree
      ∧ parseXML (generateXML rtDocTree) = some rtDocTree :=
  ⟨by rfl, parseXML_generateXML_roundtrip rtDocStr rtDocTree (by rfl)⟩
